import Mathlib

/-!
Verification of the chunking / indexing / evaluation core of the
`comp3080_ai_business_analyst_assistant` repository.

The Python sources are shallowly embedded: Python `str` values are modelled
as Lean `String` (with `List Char` used internally for character-level
operations), Python `float` arithmetic is modelled exactly over `ℚ` where the
source only adds and divides, and over `ℝ` where the source takes square
roots, powers and logarithms.  Python string predicates (`str.strip`,
`str.splitlines`, `\w`, `\s`) are modelled on their ASCII behaviour.
-/

namespace AIAssist

/-! ### Python string primitives -/

/-- ASCII whitespace as recognised by Python's `str.strip` / `\s`
(space, tab, newline, carriage return, vertical tab, form feed). -/
def pyIsSpace (c : Char) : Bool :=
  c = ' ' || c = '\t' || c = '\n' || c = '\x0d' || c = '\x0b' || c = '\x0c'

/-- Python `str.strip()` on a character list. -/
def pyStripList (s : List Char) : List Char :=
  (((s.dropWhile pyIsSpace).reverse).dropWhile pyIsSpace).reverse

/-- Python `str.strip()`. -/
def pyStrip (s : String) : String :=
  ⟨pyStripList s.data⟩

/-- Is `c` an ASCII line terminator for Python `str.splitlines` (`\n`, `\r`,
`\v`, `\f`)? -/
def isLineTerm (c : Char) : Bool :=
  c = '\n' || c = '\x0d' || c = '\x0b' || c = '\x0c'

/-- Worker for `str.splitlines`: `cur` holds the current line reversed. -/
def splitlinesGo (cur : List Char) : List Char → List (List Char)
  | [] => [cur.reverse]
  | '\x0d' :: '\n' :: [] => [cur.reverse]
  | '\x0d' :: '\n' :: d :: more => cur.reverse :: splitlinesGo [] (d :: more)
  | '\x0d' :: [] => [cur.reverse]
  | '\x0d' :: d :: more => cur.reverse :: splitlinesGo [] (d :: more)
  | c :: rest =>
    if c = '\n' || c = '\x0b' || c = '\x0c' then
      cur.reverse :: (match rest with | [] => [] | d :: more => splitlinesGo [] (d :: more))
    else
      splitlinesGo (c :: cur) rest

/-- Python `str.splitlines()` on character lists: splits on `\n`, `\r`, `\r\n`
(plus the other ASCII line boundaries `\v`, `\f`); no trailing empty line. -/
def pySplitlinesList : List Char → List (List Char)
  | [] => []
  | c :: rest => splitlinesGo [] (c :: rest)

/-- Python `str.splitlines()`. -/
def pySplitlines (s : String) : List String :=
  (pySplitlinesList s.data).map (fun l => ⟨l⟩)

/-- Python `str.lower()` (ASCII). -/
def pyLower (s : String) : String :=
  ⟨s.data.map Char.toLower⟩

/-- Python substring containment `needle in hay` on character lists. -/
def occursInList (needle : List Char) : List Char → Bool
  | [] => needle.isEmpty
  | c :: rest => needle.isPrefixOf (c :: rest) || occursInList needle rest

/-- Python substring containment `needle in hay`. -/
def occursIn (needle hay : String) : Bool :=
  occursInList needle.data hay.data

/-! ### `AI/evaluation/metrics.py` — ranking metrics (exact rational part) -/

/-- `precision_at_k` from `AI/evaluation/metrics.py`: the source first clamps
`k = min(k, len(relevance))`, returns `0.0` when that clamp is `0`, and
otherwise divides the top-`k` flag sum by the clamped `k`. -/
def precision_at_k (relevance : List ℤ) (k : ℕ) : ℚ :=
  let k' := min k relevance.length
  if k' = 0 then 0
  else ((relevance.take k').sum : ℚ) / (k' : ℚ)

/-- `recall_at_k` from `AI/evaluation/metrics.py`. -/
def recall_at_k (relevance : List ℤ) (totalRelevant : ℕ) (k : ℕ) : ℚ :=
  if totalRelevant = 0 then 0
  else
    let k' := min k relevance.length
    ((relevance.take k').sum : ℚ) / (totalRelevant : ℚ)

/-- `mean_reciprocal_rank` from `AI/evaluation/metrics.py`: reciprocal of the
1-based rank of the first truthy flag, `0.0` if none. -/
def mean_reciprocal_rank : List ℤ → ℚ :=
  go 1
where
  go (rank : ℕ) : List ℤ → ℚ
    | [] => 0
    | rel :: rest => if rel ≠ 0 then 1 / (rank : ℚ) else go (rank + 1) rest

/-! ### `AI/chunking/sections.py` — heading detection

The six heading regexes are embedded as deterministic parsers.  Greedy
matching with backtracking is equivalent to the deterministic maximal-munch
parse for these patterns on stripped lines (see the individual comments). -/

/-- Python `\d` (ASCII). -/
def pyIsDigit (c : Char) : Bool := '0' ≤ c && c ≤ '9'

/-- ASCII uppercase letter. -/
def isUpperAZ (c : Char) : Bool := 'A' ≤ c && c ≤ 'Z'

/-- ASCII lowercase letter. -/
def isLowerAZ (c : Char) : Bool := 'a' ≤ c && c ≤ 'z'

/-- ASCII letter (Python `str.isalpha` restricted to ASCII). -/
def pyIsAlpha (c : Char) : Bool := isUpperAZ c || isLowerAZ c

/-- Characters of the Roman-numeral class `[IVXLCDM]`, case-insensitively
(the pattern carries `re.IGNORECASE`). -/
def isRomanChar (c : Char) : Bool :=
  let u := c.toUpper
  u = 'I' || u = 'V' || u = 'X' || u = 'L' || u = 'C' || u = 'D' || u = 'M'

/-- The optional punctuation class `[\.)-]` that may follow an identifier. -/
def isIdentPunct (c : Char) : Bool := c = '.' || c = ')' || c = '-'

/-- Consume the `(?:\.\d+)*` part of the numeric identifier: repeatedly take a
dot followed by a nonempty digit run.  Returns (consumed, rest). -/
def numericDotLoop : List Char → (List Char × List Char)
  | '.' :: rest =>
    match rest.takeWhile pyIsDigit with
    | [] => ([], '.' :: rest)
    | d :: ds =>
      let next := numericDotLoop (rest.drop (d :: ds).length)
      ('.' :: (d :: ds) ++ next.1, next.2)
  | cs => ([], cs)
termination_by cs => cs.length
decreasing_by
  simp_wf
  omega

/-- After the identifier of a heading pattern: the optional `[\.)-]`, then
`\s+`, then the title group `.+` (which cannot cross a newline).  Returns the
title characters, or `none` when the tail does not match.  On a stripped line
the greedy `\s+` never needs to backtrack, so this is exactly the regex. -/
def identTail (cs : List Char) : Option (List Char) :=
  let afterPunct := match cs with
    | c :: rest => if isIdentPunct c then rest else cs
    | [] => cs
  wsThenTitle afterPunct
where
  /-- `\s+(.+)`: a nonempty whitespace run then a nonempty title that cannot
  cross a newline. -/
  wsThenTitle (afterPunct : List Char) : Option (List Char) :=
    let ws := afterPunct.takeWhile pyIsSpace
    if ws.isEmpty then none
    else
      let title := (afterPunct.drop ws.length).takeWhile (fun c => c ≠ '\n')
      if title.isEmpty then none else some title

/-- `_NUMERIC_PATTERN`: `^(\d+(?:\.\d+)*)(?:[\.)-])?\s+(.+)`.  Returns
(identifier, title) on success. -/
def matchNumeric (cs : List Char) : Option (List Char × List Char) :=
  let ds := cs.takeWhile pyIsDigit
  if ds.isEmpty then none
  else
    let (dots, rest) := numericDotLoop (cs.drop ds.length)
    match identTail rest with
    | some title => some (ds ++ dots, title)
    | none => none

/-- `_ROMAN_PATTERN`: `^([IVXLCDM]+)(?:[\.)-])?\s+(.+)` with `IGNORECASE`. -/
def matchRoman (cs : List Char) : Option (List Char × List Char) :=
  let rs := cs.takeWhile isRomanChar
  if rs.isEmpty then none
  else
    match identTail (cs.drop rs.length) with
    | some title => some (rs, title)
    | none => none

/-- `_UPPER_ALPHA_PATTERN`: `^([A-Z])(?:[\.)-])?\s+(.+)`. -/
def matchUpperAlpha (cs : List Char) : Option (List Char × List Char) :=
  match cs with
  | c :: rest =>
    if isUpperAZ c then
      match identTail rest with
      | some title => some ([c], title)
      | none => none
    else none
  | [] => none

/-- `_LOWER_ALPHA_PATTERN`: `^([a-z])(?:[\.)-])?\s+(.+)`. -/
def matchLowerAlpha (cs : List Char) : Option (List Char × List Char) :=
  match cs with
  | c :: rest =>
    if isLowerAZ c then
      match identTail rest with
      | some title => some ([c], title)
      | none => none
    else none
  | [] => none

/-- `_UPPERCASE_WORDS_PATTERN`: `^([A-Z][A-Z\s]{3,})$` — an uppercase letter
followed by at least three uppercase-or-whitespace characters spanning the
whole line.  The title is the whole line; there is no identifier group. -/
def matchUppercaseWords (cs : List Char) : Option (List Char) :=
  match cs with
  | c :: rest =>
    if isUpperAZ c && rest.length ≥ 3 && rest.all (fun d => isUpperAZ d || pyIsSpace d) then
      some cs
    else none
  | [] => none

/-- `_BULLET_PATTERN`: `^([\-\*â€¢])\s+(.+)`.  The source file's bullet class
is the literal bytes `-`, `*`, `â`, `€`, `¢` (a mojibake rendering of `•`). -/
def matchBullet (cs : List Char) : Option (List Char × List Char) :=
  match cs with
  | c :: rest =>
    if c = '-' || c = '*' || c = 'â' || c = '€' || c = '¢' then
      match identTail.wsThenTitle rest with
      | some title => some ([c], title)
      | none => none
    else none
  | [] => none

/-- Outcome of matching one heading pattern: the raw identifier group (if the
pattern has one that is kept) and the raw title group. -/
def matchPatterns (cs : List Char) : Option (Option (List Char) × List Char) :=
  match matchNumeric cs with
  | some (ident, title) => some (some ident, title)
  | none =>
    match matchRoman cs with
    | some (ident, title) => some (some ident, title)
    | none =>
      match matchUpperAlpha cs with
      | some (ident, title) => some (some ident, title)
      | none =>
        match matchLowerAlpha cs with
        | some (ident, title) => some (some ident, title)
        | none =>
          match matchUppercaseWords cs with
          | some title => some (none, title)
          | none =>
            match matchBullet cs with
            | some (_, title) => some (none, title)   -- bullet identifier is discarded
            | none => none

/-- Worker for whitespace splitting: `cur` holds the current word reversed. -/
def splitWsGo (cur : List Char) : List Char → List (List Char)
  | [] => if cur.isEmpty then [] else [cur.reverse]
  | c :: rest =>
    if pyIsSpace c then
      (if cur.isEmpty then [] else [cur.reverse]) ++ splitWsGo [] rest
    else splitWsGo (c :: cur) rest

/-- Python `str.split()` with no argument: split on whitespace runs, dropping
empty pieces. -/
def pySplitWsList (cs : List Char) : List (List Char) :=
  splitWsGo [] cs

/-- Worker for `str.split(".")`: `cur` holds the current piece reversed. -/
def splitDotGo (cur : List Char) : List Char → List (List Char)
  | [] => [cur.reverse]
  | c :: rest =>
    if c = '.' then cur.reverse :: splitDotGo [] rest
    else splitDotGo (c :: cur) rest

/-- Python `str.split(".")` (keeps empty pieces, like the Python original). -/
def splitOnDot (cs : List Char) : List (List Char) :=
  splitDotGo [] cs

/-- `_normalise_title`: `" ".join(title.split())`. -/
def normaliseTitle (title : List Char) : List Char :=
  List.intercalate [' '] (pySplitWsList title)

/-- A Python identifier string is "all digits" (`str.isdigit`, nonempty). -/
def pyIsDigitStr (s : List Char) : Bool :=
  !s.isEmpty && s.all pyIsDigit

/-- Roman-numeral full match `[IVXLCDM]+` (case-insensitive, nonempty). -/
def isRomanStr (s : List Char) : Bool :=
  !s.isEmpty && s.all isRomanChar

/-- `_normalise_identifier` from `AI/chunking/sections.py`. -/
def normaliseIdentifier : Option (List Char) → Option (List Char)
  | none => none
  | some ident =>
    let stripped := pyStripList ident
    if stripped.isEmpty then none
    else if stripped.all pyIsAlpha && stripped.length = 1 then
      some (stripped.map Char.toUpper)
    else if isRomanStr stripped then some (stripped.map Char.toUpper)
    else some stripped

/-- `_derive_path` from `AI/chunking/sections.py`. -/
def derivePath (identifier : Option (List Char)) (title : List Char) : List (List Char) :=
  let cleaned := normaliseTitle title
  let tokens : List (List Char) :=
    match identifier with
    | some ident =>
      if ident.isEmpty then []   -- `if identifier:` — falsy empty string
      else
        let collapsed := ident.filter (fun c => c ≠ ' ')
        if pyIsDigitStr (collapsed.filter (fun c => c ≠ '.')) then
          (splitOnDot collapsed).filter (fun part => !part.isEmpty)
        else if isRomanStr collapsed then [collapsed.map Char.toUpper]
        else if collapsed.length = 1 && collapsed.all pyIsAlpha then
          [collapsed.map Char.toUpper]
        else [collapsed]
    | none => []
  let tokens :=
    if !cleaned.isEmpty && !tokens.contains cleaned then tokens ++ [cleaned] else tokens
  if tokens.isEmpty then (if cleaned.isEmpty then [] else [cleaned]) else tokens

/-- The heading-metadata dict built by `match_heading_line`:
`{"heading": …, "identifier": …, "title": …, "path": …}`. -/
structure HeadingMetadata where
  heading : String
  identifier : Option String
  title : String
  path : List String
  deriving Repr, DecidableEq

/-- `match_heading_line` from `AI/chunking/sections.py`: strip the line, try
the six patterns in order, normalise identifier and title, derive the path. -/
def matchHeadingLine (line : String) : Option HeadingMetadata :=
  let stripped := pyStripList line.data
  if stripped.isEmpty then none
  else
    match matchPatterns stripped with
    | none => none
    | some (rawIdent, rawTitle) =>
      -- `title = groups.get("title") or stripped` — the title group of every
      -- pattern is `.+` / `[A-Z][A-Z\s]{3,}` and hence never empty.
      let title := normaliseTitle (if rawTitle.isEmpty then stripped else rawTitle)
      let ident := normaliseIdentifier rawIdent
      some
        { heading := ⟨stripped⟩
          identifier := ident.map (fun l => ⟨l⟩)
          title := ⟨title⟩
          path := (derivePath ident title).map (fun l => ⟨l⟩) }

/-- `detect_section_heading` from `AI/chunking/sections.py`: scan the first
`max_lines` (default 4) non-blank stripped lines, return the first match. -/
def detectSectionHeading (text : String) (maxLines : ℕ := 4) : Option HeadingMetadata :=
  let lines := ((pySplitlinesList text.data).map pyStripList).filter (fun l => !l.isEmpty)
  go (lines.take maxLines)
where
  go : List (List Char) → Option HeadingMetadata
    | [] => none
    | l :: rest =>
      match matchHeadingLine ⟨l⟩ with
      | some h => some h
      | none => go rest

/-! ### `AI/chunking/strategies.py` — chunking strategies -/

/-- `_normalise_text`: strip every line, drop blank lines, join with `\n`. -/
def normaliseTextList (text : List Char) : List Char :=
  List.intercalate ['\n']
    (((pySplitlinesList text).map pyStripList).filter (fun l => !l.isEmpty))

/-- `_normalise_text` on strings. -/
def normaliseText (text : String) : String :=
  ⟨normaliseTextList text.data⟩

/-- `AllInOneChunker.chunk`: the stripped text as a single chunk, or none. -/
def allInOneChunk (text : String) : List String :=
  let cleaned := pyStrip text
  if cleaned = "" then [] else [cleaned]

/-- The `while start < len(cleaned)` loop of `FixedSizeChunker.chunk`: emit
`cleaned[start:start+chunk_size]`, stop when the window reaches the end,
otherwise advance `start` to `max(end - overlap, start + 1)`. -/
def fixedChunkLoop (cleaned : List Char) (chunkSize overlap : ℕ) (start : ℕ) :
    List (List Char) :=
  if start < cleaned.length then
    let c := (cleaned.drop start).take chunkSize
    if cleaned.length ≤ start + chunkSize then [c]
    else c :: fixedChunkLoop cleaned chunkSize overlap (max (start + chunkSize - overlap) (start + 1))
  else []
termination_by cleaned.length - start
decreasing_by
  simp_wf
  omega

/-- `FixedSizeChunker.chunk` from `AI/chunking/strategies.py` (the dataclass
defaults are `chunk_size=1200`, `overlap=200`; both are configurable and the
constructor performs no validation). -/
def fixedSizeChunk (chunkSize overlap : ℕ) (text : String) : List String :=
  let cleaned := normaliseTextList text.data
  if cleaned.isEmpty then []
  else if cleaned.length ≤ chunkSize then [⟨cleaned⟩]
  else (fixedChunkLoop cleaned chunkSize overlap 0).map (fun l => ⟨l⟩)

/-- One step of `SemanticChunker.chunk`'s line loop, operating on the pair
(completed segments, current buffer); `flush` joins the buffer with `\n`,
strips it and appends it to the segments when nonempty. -/
def semanticFlush (segments : List (List Char)) (buffer : List (List Char)) :
    List (List Char) :=
  let combined := pyStripList (List.intercalate ['\n'] buffer)
  if combined.isEmpty then segments else segments ++ [combined]

/-- The line loop of `SemanticChunker.chunk`. -/
def semanticLoop (minChunkSize : ℕ) :
    List (List Char) → List (List Char) → List (List Char) → List (List Char)
  | segments, buffer, [] => semanticFlush segments buffer
  | segments, buffer, line :: rest =>
    if line.isEmpty then semanticLoop minChunkSize segments buffer rest
    else
      let (segments', buffer') :=
        if (matchHeadingLine ⟨line⟩).isSome && !buffer.isEmpty then
          (semanticFlush segments buffer, [line])
        else (segments, buffer ++ [line])
      if minChunkSize ≤ (List.intercalate ['\n'] buffer').length then
        semanticLoop minChunkSize (semanticFlush segments' buffer') [] rest
      else semanticLoop minChunkSize segments' buffer' rest

/-- The forward-merge pass of `SemanticChunker.chunk`. -/
def semanticMerge (minChunkSize : ℕ) (segments : List (List Char)) : List (List Char) :=
  segments.foldl
    (fun merged chunk =>
      match merged.getLast? with
      | some last =>
        if last.length + chunk.length < minChunkSize then
          merged.dropLast ++ [last ++ '\n' :: chunk]
        else merged ++ [chunk]
      | none => merged ++ [chunk])
    []

/-- `SemanticChunker.chunk` from `AI/chunking/strategies.py`
(default `min_chunk_size=400`). -/
def semanticChunk (minChunkSize : ℕ) (text : String) : List String :=
  let cleanedLines := (pySplitlinesList text.data).map pyStripList
  let segments := semanticLoop minChunkSize [] [] cleanedLines
  if segments.isEmpty then
    (if pyStrip text = "" then [] else [pyStrip text])
  else (semanticMerge minChunkSize segments).map (fun l => ⟨l⟩)

/-! ### `AI/memory/session.py` — section-context walk -/

/-- The section-context dict built by `_derive_section_context` /
`_default_section_context`. -/
structure SectionContext where
  heading : String
  title : String
  identifier : Option String
  path : List String
  rank : String
  level : ℕ
  deriving DecidableEq

/-- `_default_section_context` from `AI/memory/session.py`. -/
def defaultSectionContext : SectionContext :=
  { heading := "General"
    title := "General"
    identifier := none
    path := ["General"]
    rank := "General"
    level := 1 }

/-- Python string truthiness `a or b`. -/
def strOr (a b : String) : String := if a = "" then b else a

/-- Python `" > ".join(path)`. -/
def joinGt (path : List String) : String := String.intercalate " > " path

/-- `_derive_section_context` from `AI/memory/session.py`: build a context
from a detected heading; otherwise clone the previous context, or fall back
to the default one.  (`detect_section_heading(chunk or "")` equals
`detect_section_heading(chunk)` because detection of `""` is `None`.) -/
def deriveSectionContext (chunk : String) (previous : Option SectionContext) :
    SectionContext :=
  match detectSectionHeading chunk with
  | some h =>
    let headingText := strOr h.heading (strOr h.title "General")
    let title := strOr h.title headingText
    let path0 := h.path
    let path := if path0.isEmpty then [title] else path0
    { heading := headingText
      title := title
      identifier := h.identifier
      path := path
      rank := if path.isEmpty then headingText else joinGt path
      level := if path.isEmpty then 1 else path.length }
  | none =>
    match previous with
    | some prev => prev
    | none => defaultSectionContext

/-- The per-document section-context walk of `Session._rebuild_index`:
`section_context = _derive_section_context(chunk, section_context)` threaded
over the document's chunks in order. -/
def sectionContextWalk : List String → Option SectionContext → List SectionContext
  | [], _ => []
  | chunk :: rest, prev =>
    let ctx := deriveSectionContext chunk prev
    ctx :: sectionContextWalk rest (some ctx)

/-- The contexts assigned to a document's chunks (the walk starts with
`section_context = None`). -/
def documentSectionContexts (chunks : List String) : List SectionContext :=
  sectionContextWalk chunks none

/-! ### Relevance-flag derivation

Two distinct functions named `_compute_relevance_flags` exist in the code
base: a substring-only one in `AI/memory/session.py` (used by
`Session.evaluate_retrieval`) and a matching-with-consumption one in
`AI/evaluate_chunking_indexing.py` (used by the evaluation script). -/

/-- The apostrophe character (avoiding a quote literal). -/
def apos : Char := Char.ofNat 39

/-- A character of Python's `[\w']` class (ASCII `\w` plus apostrophe), as
used by `_TOKEN_PATTERN = re.compile(r"[\w']+")`. -/
def isTokenChar (c : Char) : Bool :=
  pyIsAlpha c || pyIsDigit c || c = '_' || c = apos

/-- Worker extracting maximal `[\w']+` runs; `cur` is the current run
reversed. -/
def tokenRunsGo (cur : List Char) : List Char → List (List Char)
  | [] => if cur.isEmpty then [] else [cur.reverse]
  | c :: rest =>
    if isTokenChar c then tokenRunsGo (c :: cur) rest
    else (if cur.isEmpty then [] else [cur.reverse]) ++ tokenRunsGo [] rest

/-- `re.findall(r"[\w']+", s)`. -/
def pyFindallTokens (s : List Char) : List (List Char) :=
  tokenRunsGo [] s

/-- `_tokenise`: the set of `[\w']+` tokens of a string. -/
def tokenSet (s : String) : Finset String :=
  ((pyFindallTokens s.data).map (fun l => (⟨l⟩ : String))).toFinset

/-- `_compute_relevance_flags` from `AI/memory/session.py`: flag is 1 iff
some nonempty relevant string, lowercased, is a substring of the lowercased
chunk. -/
def sessionComputeRelevanceFlags (retrieved relevant : List String) : List ℤ :=
  if retrieved.isEmpty then []
  else if relevant.isEmpty then retrieved.map (fun _ => 0)
  else
    retrieved.map (fun chunk =>
      if relevant.any (fun rel => !decide (rel = "") && occursIn (pyLower rel) (pyLower chunk))
      then 1 else 0)

/-- One prepared candidate of the script's `_compute_relevance_flags`:
`{"lower": rel.lower(), "tokens": _tokenise(rel.lower()) if rel else set(),
"matched": False}`. -/
structure RelCandidate where
  lower : String
  tokens : Finset String
  matched : Bool
  deriving DecidableEq

/-- Build one prepared candidate from a relevant string and a matched flag. -/
def mkCand (rel : String) (m : Bool) : RelCandidate :=
  { lower := pyLower rel
    tokens := if rel = "" then ∅ else tokenSet (pyLower rel)
    matched := m }

/-- The `prepared` list of the script's `_compute_relevance_flags`. -/
def prepareCandidates (relevant : List String) : List RelCandidate :=
  relevant.map (fun rel => mkCand rel false)

/-- Token-overlap ratio `len(chunk_tokens & rel_tokens) / len(rel_tokens)`
(exact rational; `x / 0 = 0` in `ℚ`, and the source never divides by zero
because it guards `if rel_tokens:`). -/
def overlapRatio (chunkTokens relTokens : Finset String) : ℚ :=
  ((chunkTokens ∩ relTokens).card : ℚ) / (relTokens.card : ℚ)

/-- The per-candidate test of the script's inner loop: skip already-matched
and empty candidates; match on substring, else on token overlap `≥ 0.6` when
the candidate has tokens. -/
def candidateMatches (chunkLower : String) (chunkTokens : Finset String)
    (c : RelCandidate) : Bool :=
  !c.matched && !decide (c.lower = "")
    && (occursIn c.lower chunkLower
        || (!decide (c.tokens = ∅)
            && decide ((0.6 : ℚ) ≤ overlapRatio chunkTokens c.tokens)))

/-- Index of the first candidate (from position `i`) passing
`candidateMatches`. -/
def findMatchIdx (chunkLower : String) (chunkTokens : Finset String) :
    List RelCandidate → ℕ → Option ℕ
  | [], _ => none
  | c :: rest, i =>
    if candidateMatches chunkLower chunkTokens c then some i
    else findMatchIdx chunkLower chunkTokens rest (i + 1)

/-- `prepared[match_idx]["matched"] = True`. -/
def markMatched : List RelCandidate → ℕ → List RelCandidate
  | [], _ => []
  | c :: rest, 0 => { c with matched := true } :: rest
  | c :: rest, i + 1 => c :: markMatched rest i

/-- The chunk loop of the script's `_compute_relevance_flags`. -/
def evalFlagsGo : List String → List RelCandidate → List ℤ
  | [], _ => []
  | chunk :: rest, cands =>
    let cl := pyLower chunk
    let ct := tokenSet cl
    match findMatchIdx cl ct cands 0 with
    | some i => 1 :: evalFlagsGo rest (markMatched cands i)
    | none => 0 :: evalFlagsGo rest cands

/-- `_compute_relevance_flags` from `AI/evaluate_chunking_indexing.py`. -/
def evalComputeRelevanceFlags (retrieved relevant : List String) : List ℤ :=
  if retrieved.isEmpty then []
  else evalFlagsGo retrieved (prepareCandidates relevant)

/-- The claim's match relation, stated from the spec's words: the lowercased
relevant string is a substring of the lowercased chunk, or — when no
substring match exists — the token-overlap (intersection of word-token sets
divided by the relevant string's token count) is at least `0.6`. -/
def claimMatch (rel chunk : String) : Bool :=
  occursIn (pyLower rel) (pyLower chunk)
    || (!occursIn (pyLower rel) (pyLower chunk)
        && decide ((0.6 : ℚ) ≤ overlapRatio (tokenSet (pyLower chunk)) (tokenSet (pyLower rel))))

/-- Smallest relevant-string index `≥ i` that is not yet consumed and matches
the chunk under `claimMatch`. -/
def firstUnusedMatch (chunk : String) : List String → Finset ℕ → ℕ → Option ℕ
  | [], _, _ => none
  | rel :: rest, used, i =>
    if !decide (i ∈ used) && claimMatch rel chunk then some i
    else firstUnusedMatch chunk rest used (i + 1)

/-- The claim's relevance-flag derivation: walk the retrieved chunks in rank
order; each chunk is flagged 1 iff some not-yet-consumed relevant string
matches it (`claimMatch`), and the matched relevant string — the earliest in
list order — is then consumed, so each relevant string matches at most one
retrieved chunk and the first retrieved chunk in rank order wins. -/
def specFlagsGo (relevant : List String) : List String → Finset ℕ → List ℤ
  | [], _ => []
  | chunk :: rest, used =>
    match firstUnusedMatch chunk relevant used 0 with
    | some i => 1 :: specFlagsGo relevant rest (insert i used)
    | none => 0 :: specFlagsGo relevant rest used

/-- The relevance-flag derivation exactly as the claim describes it. -/
def specRelevanceFlags (retrieved relevant : List String) : List ℤ :=
  specFlagsGo relevant retrieved ∅

/-- Remove the leading `overlap` characters of every chunk after the first
and concatenate ("concatenated chunks, once overlaps are removed"). -/
def reconstructChunkList (overlap : ℕ) : List (List Char) → List Char
  | [] => []
  | c :: rest => c ++ (rest.map (List.drop overlap)).flatten

/-! ### `AI/evaluation/metrics.py` — NDCG (real-valued part)

`ndcg_at_k` divides by `log2`, so it is modelled over `ℝ` (the float
arithmetic of the source is modelled as exact real arithmetic). -/

/-- `sorted(gains, reverse=True)`: the gains sorted descending. -/
noncomputable def sortedDesc (l : List ℝ) : List ℝ :=
  l.insertionSort (· ≥ ·)

/-- `_discounted_cumulative_gain` from `AI/evaluation/metrics.py`:
`Σ_{idx<k} (2**gains[idx] − 1) / log2(idx + 2)` (only ever called with
`k ≤ len(gains)`; out-of-range entries are read as gain `0`, which
contributes `(2^0 − 1) / log2(idx+2) = 0`). -/
noncomputable def discounted_cumulative_gain (gains : List ℝ) (k : ℕ) : ℝ :=
  ∑ i in Finset.range k, ((2 : ℝ) ^ gains.getD i 0 - 1) / Real.logb 2 ((i : ℝ) + 2)

/-- `ndcg_at_k` from `AI/evaluation/metrics.py`: clamp `k` to the number of
gains, return `0` for an empty window, divide DCG by the ideal
(descending-sorted) DCG, returning `0` when the ideal DCG is `0`. -/
noncomputable def ndcg_at_k (gains : List ℝ) (k : ℕ) : ℝ :=
  let k' := min k gains.length
  if k' = 0 then 0
  else
    let dcg := discounted_cumulative_gain gains k'
    let ideal := discounted_cumulative_gain (sortedDesc gains) k'
    if ideal = 0 then 0 else dcg / ideal

/-! ### `AI/indexing/embedding.py` and `AI/indexing/llama_index_stub.py`

`embed` L2-normalises the term-frequency vector and `cosine_similarity` dots
two normalised vectors over their common keys, so
`cosine(embed(q), embed(t)) = dot(counts_q, counts_t) / (‖counts_q‖·‖counts_t‖)`
(exactly, in `ℝ`); either side without tokens gives `0`.  The
`if norm == 0` branch of `embed` is unreachable for a nonempty token list. -/

/-- The token list of `embed`: `_TOKEN_PATTERN.findall(text.lower())`. -/
def tokenList (s : String) : List String :=
  (pyFindallTokens (pyLower s).data).map (fun l => (⟨l⟩ : String))

/-- Term frequency of one token (`Counter(tokens)[w]`). -/
def tokenCount (s : String) (w : String) : ℕ :=
  (tokenList s).count w

/-- The distinct tokens of a text. -/
def tokenKeys (s : String) : Finset String :=
  (tokenList s).toFinset

/-- Squared L2 norm of the count vector: `sum(v * v for v in counts.values())`. -/
def normSq (s : String) : ℕ :=
  ∑ w in tokenKeys s, (tokenCount s w) ^ 2

/-- Dot product of the two count vectors over their common keys. -/
def dotCount (q t : String) : ℕ :=
  ∑ w in tokenKeys q ∩ tokenKeys t, tokenCount q w * tokenCount t w

/-- `cosine_similarity(embed(q), embed(t))` in closed form. -/
noncomputable def cosineScore (q t : String) : ℝ :=
  if tokenList q = [] ∨ tokenList t = [] then 0
  else (dotCount q t : ℝ) / (Real.sqrt (normSq q) * Real.sqrt (normSq t))

/-- `_SectionNode` of `AI/indexing/llama_index_stub.py` (its `metadata` dict
always carries `section_path = path` and, after the search-time update,
`document_id` = the owning document's id; the embedding carries those two
directly). -/
structure SectionNode where
  heading : String
  path : List String
  chunks : List String
  deriving DecidableEq

/-- `_DocumentNode`. -/
structure DocNode where
  docId : String
  sections : List SectionNode
  deriving DecidableEq

/-- `"\n".join(section.chunks)` — the concatenated section text scored in
stage 1. -/
def sectionCombined (sec : SectionNode) : String :=
  String.intercalate "\n" sec.chunks

/-- A stage-1 section-level `IndexResult`: the fields of its metadata that
stage 2 reads back (`document_id`, `section_path`) plus the fields stamped
for the caller. -/
structure SectionScore where
  docId : String
  path : List String
  heading : String
  chunkCount : ℕ
  score : ℝ

/-- A chunk-level `IndexResult` of `LlamaIndexStub.search` (the metadata is
the selected section's, extended with `section_score`). -/
structure SearchHit where
  chunk : String
  score : ℝ
  docId : String
  path : List String
  sectionScore : ℝ

/-- Stage 1 of `LlamaIndexStub.search`: score every section of every
document by the cosine between the query and the section's concatenated
chunk text, skipping scores `≤ 0`. -/
noncomputable def sectionScoresOf (q : String) (docs : List DocNode) : List SectionScore :=
  (docs.map (fun d =>
    d.sections.filterMap (fun sec =>
      let score := cosineScore q (sectionCombined sec)
      if score ≤ 0 then none
      else some ⟨d.docId, sec.path, sec.heading, sec.chunks.length, score⟩))).flatten

/-- Python's stable `list.sort(key=score, reverse=True)`. -/
noncomputable def sortByScoreDesc {α : Type} (score : α → ℝ) (l : List α) : List α :=
  l.insertionSort (fun a b => score b ≤ score a)

/-- `section_scores.sort(...)[:top_k]` — the retained sections. -/
noncomputable def selectedSections (q : String) (topK : ℕ) (docs : List DocNode) :
    List SectionScore :=
  (sortByScoreDesc SectionScore.score (sectionScoresOf q docs)).take topK

/-- Stage 2 for one retained section: re-look the section up by
`document_id`/`section_path`, re-score each of its chunks against the query
and keep the positive ones. -/
noncomputable def expandSection (q : String) (docs : List DocNode) (ss : SectionScore) :
    List SearchHit :=
  match docs.find? (fun d => d.docId == ss.docId) with
  | none => []
  | some d =>
    match d.sections.find? (fun sec => sec.path == ss.path) with
    | none => []
    | some sec =>
      sec.chunks.filterMap (fun chunk =>
        let cscore := cosineScore q chunk
        if cscore ≤ 0 then none
        else some ⟨chunk, cscore, ss.docId, ss.path, ss.score⟩)

/-- `LlamaIndexStub.search`: empty for an empty query or index, else the
two-stage narrowing — select the best `top_k` positive-scoring sections, then
merge their surviving chunk hits, sort descending by chunk score, truncate to
`top_k`. -/
noncomputable def searchIndex (q : String) (topK : ℕ) (docs : List DocNode) :
    List SearchHit :=
  if q = "" ∨ docs = [] then []
  else
    ((sortByScoreDesc SearchHit.score
      (((selectedSections q topK docs).map (expandSection q docs)).flatten)).take topK)

/-! ### `AI/memory/session.py` — strategy dispatch and index rebuild

The session is modelled by the components the strategy setters touch: the
two active strategy keys, the attachments (with their per-strategy chunk
caches), and the contents of the active index (the documents/metadata pairs
passed to `add_documents` by `_rebuild_index`). -/

/-- A single quote character (`chr(39)`), used by the f-string error
messages. -/
def squote : String := String.singleton apos

/-- The metadata dict built by `_build_chunk_metadata`
(`section_identifier` is popped when the identifier is `None`, modelled by
the `Option`). -/
structure ChunkMeta where
  attachmentId : String
  chunkIndex : ℕ
  chunkId : String
  filename : String
  documentId : String
  documentLabel : String
  sectionName : String
  sectionTitle : String
  sectionHeading : String
  sectionLabel : String
  sectionIdentifier : Option String
  sectionPath : List String
  sectionRank : String
  sectionLevel : ℕ
  deriving DecidableEq

/-- An `Attachment` (the fields the chunking pipeline reads; the extraction
metadata, sizes and timestamps play no role in strategy dispatch). -/
structure Attachment where
  attachmentId : String
  filename : String
  text : String
  chunks : List String
  chunksByStrategy : List (String × List String)
  deriving DecidableEq

/-- `Attachment.get_chunks`: the cached chunks for `strategy` when present
(and the strategy key truthy), else the currently selected `chunks`. -/
def getChunks (att : Attachment) (strategy : String) : List String :=
  if strategy = "" then att.chunks
  else
    match att.chunksByStrategy.lookup strategy with
    | some cached => cached
    | none => att.chunks

/-- `_build_chunk_metadata` from `AI/memory/session.py`. -/
def buildChunkMetadata (att : Attachment) (chunkIndex : ℕ) (ctx : SectionContext) :
    ChunkMeta :=
  let identifier := ctx.identifier
  let title := strOr ctx.title (strOr ctx.heading "General")
  let labelParts :=
    (match identifier with
     | some i => if i = "" then [] else [i]
     | none => [])
    ++ (if title = "" then [] else [title])
  let label := strOr (pyStrip (String.intercalate " " labelParts)) ctx.heading
  { attachmentId := att.attachmentId
    chunkIndex := chunkIndex
    chunkId := att.attachmentId ++ ":" ++ toString chunkIndex
    filename := att.filename
    documentId := att.attachmentId
    documentLabel := att.filename
    sectionName := ctx.heading
    sectionTitle := title
    sectionHeading := ctx.heading
    sectionLabel := label
    sectionIdentifier := identifier
    sectionPath := ctx.path
    sectionRank := ctx.rank
    sectionLevel := ctx.level }

/-- The keys of the `_CHUNKERS` registry in `AI/chunking/__init__.py`. -/
def availableChunkers : List String := ["all_in_one", "fixed", "semantic"]

/-- The keys of the `_INDEXER_FACTORIES` registry in
`AI/indexing/__init__.py`. -/
def availableIndexers : List String := ["none", "faiss", "llama_index"]

/-- `get_chunker(key).chunk` for the registered keys (with the dataclass
default parameters); the setters only call it after the registry check, so
the catch-all branch is never reached there. -/
def getChunkerFn : String → (String → List String)
  | "all_in_one" => allInOneChunk
  | "fixed" => fixedSizeChunk 1200 200
  | "semantic" => semanticChunk 400
  | _ => fun _ => []

/-- The (document, metadata) pairs `Session._rebuild_index` produces for one
attachment: its chunks under the active chunking strategy, with the
section-context walk threaded over them. -/
def attachmentEntries (att : Attachment) (strategy : String) :
    List (String × ChunkMeta) :=
  let chunks := getChunks att strategy
  let ctxs := documentSectionContexts chunks
  (chunks.enum.zip ctxs).map (fun p => (p.1.2, buildChunkMetadata att p.1.1 p.2))

/-- The full contents `Session._rebuild_index` feeds into the freshly reset
index (empty when there are no documents). -/
def rebuildIndexEntries (attachments : List Attachment) (strategy : String) :
    List (String × ChunkMeta) :=
  (attachments.map (fun att => attachmentEntries att strategy)).flatten

/-- The session components touched by the strategy setters. -/
structure SessionState where
  chunkingStrategy : String
  indexingStrategy : String
  attachments : List Attachment
  indexEntries : List (String × ChunkMeta)
  deriving DecidableEq

/-- `Session._rebuild_index`: reset the active index and re-add every
attachment's chunks under the active chunking strategy. -/
def rebuildSession (s : SessionState) : SessionState :=
  { s with indexEntries := rebuildIndexEntries s.attachments s.chunkingStrategy }

/-- `Session.set_chunking_strategy`: no-op on the current key; raise
`ValueError(f"Unsupported chunking strategy '{strategy}'")` on an
unregistered key *before* any mutation; otherwise switch the key, fill the
per-attachment caches lazily, reselect each attachment's `chunks`, and
rebuild.  The returned `Option String` is the raised error message. -/
def setChunkingStrategy (s : SessionState) (strategy : String) :
    SessionState × Option String :=
  if strategy = s.chunkingStrategy then (s, none)
  else if strategy ∉ availableChunkers then
    (s, some ("Unsupported chunking strategy " ++ squote ++ strategy ++ squote))
  else
    let atts := s.attachments.map (fun att =>
      let att' :=
        if (att.chunksByStrategy.lookup strategy).isSome then att
        else { att with chunksByStrategy :=
                att.chunksByStrategy ++ [(strategy, getChunkerFn strategy att.text)] }
      { att' with chunks := getChunks att' strategy })
    (rebuildSession { s with chunkingStrategy := strategy, attachments := atts }, none)

/-- `Session.set_indexing_strategy`: no-op on the current key; raise
`ValueError(f"Unsupported indexing strategy '{strategy}'")` on an
unregistered key before any mutation; otherwise switch the key and rebuild. -/
def setIndexingStrategy (s : SessionState) (strategy : String) :
    SessionState × Option String :=
  if strategy = s.indexingStrategy then (s, none)
  else if strategy ∉ availableIndexers then
    (s, some ("Unsupported indexing strategy " ++ squote ++ strategy ++ squote))
  else
    (rebuildSession { s with indexingStrategy := strategy }, none)

end AIAssist

open AIAssist

lemma mapMk_data (l : List (List Char)) :
    ((l.map (fun c => (⟨c⟩ : String))).map String.data) = l := by
  rw [List.map_map]
  have h : (String.data ∘ fun c : List Char => (⟨c⟩ : String)) = id := rfl
  rw [h, List.map_id]

lemma dropLast_map_mk (l : List (List Char)) :
    ((l.map (fun c => (⟨c⟩ : String))).dropLast) = l.dropLast.map (fun c => (⟨c⟩ : String)) := by
  rw [List.dropLast_eq_take, List.dropLast_eq_take, List.map_take, List.length_map]

lemma fixedChunkLoop_ne_nil (cleaned : List Char) (cs ov start : ℕ)
    (h : start < cleaned.length) : fixedChunkLoop cleaned cs ov start ≠ [] := by
  rw [fixedChunkLoop]
  simp only [if_pos h]
  split <;> simp

lemma drop_take_comm {α : Type} (l : List α) (n m : ℕ) :
    (l.take n).drop m = (l.drop m).take (n - m) := by
  rcases le_or_lt m n with h | h
  · have := List.take_drop m (n - m) l
    have hmn : m + (n - m) = n := by omega
    rw [hmn] at this
    exact this.symm
  · have h1 : (l.take n).drop m = [] := by
      apply List.drop_eq_nil_of_le
      simp only [List.length_take]
      omega
    have h2 : n - m = 0 := by omega
    simp [h1, h2]

lemma fixedChunkLoop_join_drop (cleaned : List Char) (cs ov : ℕ) (hov : ov < cs) :
    ∀ d start, cleaned.length - start ≤ d → start < cleaned.length →
      ((fixedChunkLoop cleaned cs ov start).map (List.drop ov)).flatten
        = cleaned.drop (start + ov) := by
  intro d
  induction d with
  | zero => intro start h1 h2; omega
  | succ d ih =>
    intro start h1 h2
    rw [fixedChunkLoop]
    simp only [if_pos h2]
    by_cases hend : cleaned.length ≤ start + cs
    · simp only [if_pos hend, List.map_cons, List.map_nil, List.flatten_cons,
        List.flatten_nil, List.append_nil]
      rw [drop_take_comm, List.drop_drop]
      rw [List.take_of_length_le]
      simp only [List.length_drop]
      omega
    · simp only [if_neg hend, List.map_cons, List.flatten_cons]
      have hmax : max (start + cs - ov) (start + 1) = start + cs - ov := by omega
      rw [hmax]
      rw [ih (start + cs - ov) (by omega) (by omega)]
      rw [drop_take_comm, List.drop_drop]
      have h3 : start + cs - ov + ov = start + cs := by omega
      rw [h3]
      have h5 : start + cs = (start + ov) + (cs - ov) := by omega
      rw [h5, List.drop_take_append_drop]

lemma fixedChunkLoop_reconstruct (cleaned : List Char) (cs ov : ℕ) (hov : ov < cs)
    (start : ℕ) (h : start < cleaned.length) :
    reconstructChunkList ov (fixedChunkLoop cleaned cs ov start) = cleaned.drop start := by
  rw [fixedChunkLoop]
  simp only [if_pos h]
  by_cases hend : cleaned.length ≤ start + cs
  · simp only [if_pos hend, reconstructChunkList, List.map_nil, List.flatten_nil,
      List.append_nil]
    rw [List.take_of_length_le]
    simp only [List.length_drop]
    omega
  · simp only [if_neg hend, reconstructChunkList]
    have hmax : max (start + cs - ov) (start + 1) = start + cs - ov := by omega
    rw [hmax]
    rw [fixedChunkLoop_join_drop cleaned cs ov hov (cleaned.length - (start + cs - ov))
      (start + cs - ov) (le_refl _) (by omega)]
    have h3 : start + cs - ov + ov = start + cs := by omega
    rw [h3]
    have h5 : start + cs = start + cs := rfl
    have h6 : cleaned.drop (start + cs) = (cleaned.drop start).drop cs := by
      rw [List.drop_drop]
    rw [h6, List.take_append_drop]

lemma fixedChunkLoop_dropLast_length (cleaned : List Char) (cs ov : ℕ) (hov : ov < cs) :
    ∀ d start, cleaned.length - start ≤ d → start < cleaned.length →
      ∀ x ∈ (fixedChunkLoop cleaned cs ov start).dropLast, x.length = cs := by
  intro d
  induction d with
  | zero => intro start h1 h2; omega
  | succ d ih =>
    intro start h1 h2
    rw [fixedChunkLoop]
    simp only [if_pos h2]
    by_cases hend : cleaned.length ≤ start + cs
    · simp [if_pos hend]
    · simp only [if_neg hend]
      have hmax : max (start + cs - ov) (start + 1) = start + cs - ov := by omega
      rw [hmax]
      have hlt : start + cs - ov < cleaned.length := by omega
      rw [List.dropLast_cons_of_ne_nil (fixedChunkLoop_ne_nil cleaned cs ov _ hlt)]
      intro x hx
      rcases List.mem_cons.mp hx with hx | hx
      · subst hx
        simp only [List.length_take, List.length_drop]
        omega
      · exact ih (start + cs - ov) (by omega) hlt x hx

lemma fixedChunkLoop_length_le (cleaned : List Char) (cs ov : ℕ) :
    ∀ d start, cleaned.length - start ≤ d →
      (fixedChunkLoop cleaned cs ov start).length ≤ cleaned.length - start := by
  intro d
  induction d with
  | zero =>
    intro start h1
    rw [fixedChunkLoop]
    have : ¬ start < cleaned.length := by omega
    simp [this]
  | succ d ih =>
    intro start h1
    rw [fixedChunkLoop]
    by_cases h2 : start < cleaned.length
    · simp only [if_pos h2]
      by_cases hend : cleaned.length ≤ start + cs
      · simp only [if_pos hend, List.length_cons, List.length_nil]
        omega
      · simp only [if_neg hend, List.length_cons]
        have := ih (max (start + cs - ov) (start + 1)) (by omega)
        omega
    · simp [h2]

/-- C4: for `0 ≤ overlap < size`, the FixedWindow chunk sequence reconstructs
the normalised source text exactly — the first chunk concatenated with every
subsequent chunk minus its leading `overlap` characters equals the normalised
text — and every chunk except possibly the last has length exactly `size`. -/
theorem fixed_window_reconstructs (text : String) (chunkSize overlap : ℕ)
    (hov : overlap < chunkSize) :
    reconstructChunkList overlap ((fixedSizeChunk chunkSize overlap text).map String.data)
        = (normaliseText text).data
    ∧ ∀ s ∈ (fixedSizeChunk chunkSize overlap text).dropLast, s.length = chunkSize := by
  unfold fixedSizeChunk normaliseText
  by_cases hempty : (normaliseTextList text.data).isEmpty
  · simp only [hempty, if_pos]
    constructor
    · simp only [List.map_nil, reconstructChunkList]
      rw [List.isEmpty_iff] at hempty
      simp [hempty]
    · simp
  · simp only [hempty, Bool.false_eq_true, if_false]
    by_cases hshort : (normaliseTextList text.data).length ≤ chunkSize
    · simp [if_pos hshort, reconstructChunkList]
    · simp only [if_neg hshort]
      have hlen : 0 < (normaliseTextList text.data).length := by
        rw [List.isEmpty_iff] at hempty
        cases h : normaliseTextList text.data with
        | nil => exact absurd h hempty
        | cons a l => simp
      constructor
      · rw [mapMk_data, fixedChunkLoop_reconstruct _ _ _ hov 0 hlen]
        simp
      · intro s hs
        rw [dropLast_map_mk] at hs
        rcases List.mem_map.mp hs with ⟨l, hl, rfl⟩
        have := fixedChunkLoop_dropLast_length _ chunkSize overlap hov
          ((normaliseTextList text.data).length) 0 (by omega) hlen l hl
        simpa [String.length] using this

/-- C4 witness: `fixed_window_reconstructs` at `size = 10`, `overlap = 3` on a
25-character string of distinct characters. -/
theorem fixed_window_reconstructs_witness :
    3 < 10
    ∧ (reconstructChunkList 3
          ((fixedSizeChunk 10 3 "abcdefghijklmnopqrstuvwxy").map String.data)
        = (normaliseText "abcdefghijklmnopqrstuvwxy").data
      ∧ ∀ s ∈ (fixedSizeChunk 10 3 "abcdefghijklmnopqrstuvwxy").dropLast,
          s.length = 10) :=
  ⟨by decide, fixed_window_reconstructs "abcdefghijklmnopqrstuvwxy" 10 3 (by decide)⟩

/-- C9: `FixedSizeChunker.chunk` terminates for every text, every
`chunk_size ≥ 1` and every overlap — including `overlap ≥ chunk_size` — since
the window start advances to `max(end − overlap, start + 1)`, which strictly
increases per iteration; consequently the number of emitted chunks is bounded
by the length of the normalised text. -/
theorem fixed_chunk_terminates (text : String) (chunkSize overlap : ℕ)
    (hcs : 1 ≤ chunkSize) :
    (fixedSizeChunk chunkSize overlap text).length ≤ (normaliseText text).length := by
  unfold fixedSizeChunk
  by_cases hempty : (normaliseTextList text.data).isEmpty
  · simp [hempty]
  · simp only [hempty, Bool.false_eq_true, if_false]
    by_cases hshort : (normaliseTextList text.data).length ≤ chunkSize
    · simp only [if_pos hshort, List.length_cons, List.length_nil]
      rw [List.isEmpty_iff] at hempty
      have : 0 < (normaliseTextList text.data).length := by
        cases h : normaliseTextList text.data with
        | nil => exact absurd h hempty
        | cons a l => simp
      simpa [normaliseText, String.length] using this
    · simp only [if_neg hshort, List.length_map]
      have := fixedChunkLoop_length_le (normaliseTextList text.data) chunkSize overlap
        ((normaliseTextList text.data).length) 0 (by omega)
      simpa [normaliseText, String.length] using this

/-- C9 witness: `fixed_chunk_terminates` with `chunk_size = 10` and the
degenerate `overlap = 10 ≥ chunk_size`. -/
theorem fixed_chunk_terminates_witness :
    1 ≤ 10
    ∧ (fixedSizeChunk 10 10 "abcdefghijklmnopqrstuvwxy").length
        ≤ (normaliseText "abcdefghijklmnopqrstuvwxy").length :=
  ⟨by decide, fixed_chunk_terminates "abcdefghijklmnopqrstuvwxy" 10 10 (by decide)⟩

set_option maxRecDepth 16384 in
/-- C3 (code_bug evidence): configuring the FixedWindow chunker with
`overlap = size = 10` is *not* rejected — no `ConfigurationError` type exists
anywhere in the code base — and the resulting chunker is usable: on the
25-character example string it produces 16 windows advancing one character at
a time. -/
theorem fixed_chunk_overlap_eq_size_not_rejected :
    fixedSizeChunk 10 10 "abcdefghijklmnopqrstuvwxy"
      = ["abcdefghij", "bcdefghijk", "cdefghijkl", "defghijklm", "efghijklmn",
         "fghijklmno", "ghijklmnop", "hijklmnopq", "ijklmnopqr", "jklmnopqrs",
         "klmnopqrst", "lmnopqrstu", "mnopqrstuv", "nopqrstuvw", "opqrstuvwx",
         "pqrstuvwxy"] := by
  simp +decide [fixedSizeChunk, fixedChunkLoop]

lemma pyLower_eq_empty (s : String) : pyLower s = "" ↔ s = "" := by
  constructor
  · intro h
    have h2 : s.data.map Char.toLower = [] := congrArg String.data h
    exact String.ext (List.map_eq_nil_iff.mp h2)
  · intro h
    rw [h]
    rfl

lemma overlapRatio_empty_right (ct : Finset String) :
    ¬ ((0.6 : ℚ) ≤ overlapRatio ct ∅) := by
  norm_num [overlapRatio]

lemma candidateMatches_mkCand (chunk rel : String) (m : Bool) (hrel : rel ≠ "") :
    candidateMatches (pyLower chunk) (tokenSet (pyLower chunk)) (mkCand rel m)
      = (!m && claimMatch rel chunk) := by
  unfold candidateMatches mkCand claimMatch
  simp only [if_neg hrel]
  have h1 : decide (pyLower rel = "") = false := by
    simp [pyLower_eq_empty, hrel]
  cases m with
  | true => simp
  | false =>
    simp only [Bool.not_false, Bool.true_and, h1, Bool.not_false, Bool.true_and]
    cases hsub : occursIn (pyLower rel) (pyLower chunk) with
    | true => simp
    | false =>
      simp only [Bool.false_or, Bool.not_false, Bool.true_and]
      by_cases htok : tokenSet (pyLower rel) = ∅
      · rw [htok]
        simp [decide_eq_false (overlapRatio_empty_right (tokenSet (pyLower chunk)))]
      · simp [htok]

/-- The prepared-candidate list as a zip of the relevant strings with their
matched flags (proof-side representation). -/
def candsOf (rels : List String) (flags : List Bool) : List RelCandidate :=
  List.zipWith mkCand rels flags

lemma prepareCandidates_eq_candsOf (rels : List String) :
    prepareCandidates rels = candsOf rels (List.replicate rels.length false) := by
  induction rels with
  | nil => rfl
  | cons r rest ih =>
    simp only [prepareCandidates, List.map_cons, candsOf, List.length_cons,
      List.replicate_succ, List.zipWith_cons_cons]
    exact congrArg _ ih

lemma markMatched_candsOf (rels : List String) :
    ∀ (flags : List Bool) (i : ℕ),
      markMatched (candsOf rels flags) i = candsOf rels (flags.set i true) := by
  induction rels with
  | nil => intro flags i; cases flags <;> rfl
  | cons r rest ih =>
    intro flags i
    cases flags with
    | nil => rfl
    | cons m fl =>
      cases i with
      | zero => simp [candsOf, markMatched, mkCand]
      | succ i =>
        simp only [candsOf, List.zipWith_cons_cons, markMatched, List.set_cons_succ]
        exact congrArg _ (ih fl i)

lemma firstUnusedMatch_lt (chunk : String) :
    ∀ (rels : List String) (used : Finset ℕ) (j i : ℕ),
      firstUnusedMatch chunk rels used j = some i → j ≤ i ∧ i < j + rels.length := by
  intro rels
  induction rels with
  | nil => intro used j i h; simp [firstUnusedMatch] at h
  | cons r rest ih =>
    intro used j i h
    rw [firstUnusedMatch] at h
    by_cases hc : (!decide (j ∈ used) && claimMatch r chunk) = true
    · rw [if_pos hc] at h
      cases h
      simp
    · rw [if_neg hc] at h
      have := ih used (j + 1) i h
      constructor
      · omega
      · simp only [List.length_cons]
        omega

lemma findMatchIdx_eq_firstUnused (chunk : String) (used : Finset ℕ) :
    ∀ (rels : List String) (flags : List Bool) (j : ℕ),
      flags.length = rels.length →
      (∀ p, p < rels.length → flags.getD p false = decide ((j + p) ∈ used)) →
      (∀ r ∈ rels, r ≠ "") →
      findMatchIdx (pyLower chunk) (tokenSet (pyLower chunk)) (candsOf rels flags) j
        = firstUnusedMatch chunk rels used j := by
  intro rels
  induction rels with
  | nil =>
    intro flags j _ _ _
    cases flags <;> rfl
  | cons rel rest ih =>
    intro flags j hlen hflag hne
    cases flags with
    | nil => simp at hlen
    | cons m fl =>
      have hm : m = decide (j ∈ used) := by
        have := hflag 0 (by simp)
        simpa using this
      simp only [candsOf, List.zipWith_cons_cons, findMatchIdx, firstUnusedMatch]
      rw [candidateMatches_mkCand chunk rel m (hne rel (List.mem_cons_self rel rest))]
      rw [hm]
      by_cases hc : (!decide (j ∈ used) && claimMatch rel chunk) = true
      · rw [if_pos hc, if_pos hc]
      · rw [if_neg hc, if_neg hc]
        apply ih fl (j + 1)
        · simpa using hlen
        · intro p hp
          have := hflag (p + 1) (by simpa using Nat.succ_lt_succ hp)
          have harith : j + (p + 1) = j + 1 + p := by omega
          rw [harith] at this
          simpa using this
        · intro r hr
          exact hne r (List.mem_cons_of_mem rel hr)

lemma evalFlagsGo_eq_specFlagsGo (relevant : List String)
    (hne : ∀ r ∈ relevant, r ≠ "") :
    ∀ (retrieved : List String) (flags : List Bool) (used : Finset ℕ),
      flags.length = relevant.length →
      (∀ p, p < relevant.length → flags.getD p false = decide (p ∈ used)) →
      evalFlagsGo retrieved (candsOf relevant flags) = specFlagsGo relevant retrieved used := by
  intro retrieved
  induction retrieved with
  | nil => intro flags used _ _; rfl
  | cons chunk rest ih =>
    intro flags used hlen hinv
    rw [evalFlagsGo, specFlagsGo]
    have hfind := findMatchIdx_eq_firstUnused chunk used relevant flags 0 hlen
      (by intro p hp; simpa using hinv p hp) hne
    rw [hfind]
    cases hfm : firstUnusedMatch chunk relevant used 0 with
    | none =>
      simp only
      exact congrArg _ (ih flags used hlen hinv)
    | some i =>
      simp only
      rw [markMatched_candsOf relevant flags i]
      refine congrArg _ (ih (flags.set i true) (insert i used) (by simpa using hlen) ?_)
      intro p hp
      have hi : i < relevant.length := by
        have := firstUnusedMatch_lt chunk relevant used 0 i hfm
        omega
      by_cases hpi : p = i
      · subst hpi
        have hplen : p < flags.length := by omega
        rw [List.getD_eq_getElem?_getD, List.getElem?_set_self (by omega)]
        simp
      · rw [List.getD_eq_getElem?_getD, List.getElem?_set_ne (by omega),
          ← List.getD_eq_getElem?_getD]
        rw [hinv p hp]
        simp [Finset.mem_insert, hpi]

/-- C1 counterexample: the claim, read against the `_compute_relevance_flags`
of `AI/memory/session.py` it cites, is false — that function lets one
relevant string flag several retrieved chunks (no at-most-one consumption and
no token-overlap fallback), so `retrieved = ["a b", "a b"]`,
`relevant = ["a b"]` yields `[1, 1]` where the claimed derivation yields
`[1, 0]`. -/
theorem relevance_flags_session_counterexample :
    sessionComputeRelevanceFlags ["a b", "a b"] ["a b"] = [1, 1]
    ∧ specRelevanceFlags ["a b", "a b"] ["a b"] = [1, 0]
    ∧ sessionComputeRelevanceFlags ["a b", "a b"] ["a b"]
        ≠ specRelevanceFlags ["a b", "a b"] ["a b"] := by
  refine ⟨by decide, by decide, by decide⟩

/-- C1 (amended): the claimed relevance-flag derivation — each relevant
string matches at most one retrieved chunk, first retrieved chunk in rank
order wins, flag 1 iff some relevant string is matched to the chunk, a match
being a lowercased-substring hit or, failing that, token-overlap `≥ 0.6` —
is exactly the `_compute_relevance_flags` of
`AI/evaluate_chunking_indexing.py` (for reference lists without empty
strings); the same-named function in `AI/memory/session.py` instead flags a
chunk 1 iff any nonempty relevant string is a substring of it. -/
theorem relevance_flags_eval_matches_claim (retrieved relevant : List String)
    (hne : ∀ r ∈ relevant, r ≠ "") :
    evalComputeRelevanceFlags retrieved relevant = specRelevanceFlags retrieved relevant := by
  unfold evalComputeRelevanceFlags specRelevanceFlags
  cases retrieved with
  | nil => rfl
  | cons chunk rest =>
    simp only [List.isEmpty_cons, Bool.false_eq_true, if_false]
    rw [prepareCandidates_eq_candsOf]
    apply evalFlagsGo_eq_specFlagsGo relevant hne (chunk :: rest)
      (List.replicate relevant.length false) ∅
    · simp
    · intro p hp
      rw [List.getD_eq_getElem?_getD, List.getElem?_replicate]
      simp [hp]

/-- C1 witness: `relevance_flags_eval_matches_claim` on the spec's scenario
(retrieved `["The onboarding flow is documented here"]`, relevant
`["onboarding flow"]`). -/
theorem relevance_flags_eval_matches_claim_witness :
    (∀ r ∈ ["onboarding flow"], r ≠ "")
    ∧ evalComputeRelevanceFlags ["The onboarding flow is documented here"] ["onboarding flow"]
        = specRelevanceFlags ["The onboarding flow is documented here"] ["onboarding flow"] :=
  ⟨by decide, relevance_flags_eval_matches_claim
    ["The onboarding flow is documented here"] ["onboarding flow"] (by decide)⟩

/-- C2 counterexample: the claim says the divisor of `precision@k` is `k`
itself even when the relevance list is shorter than `k`; on the code,
`precision_at_k([1], 2)` divides by the clamped length `1` and returns `1`,
not `1/2`. -/
theorem precision_at_k_divisor_counterexample :
    AIAssist.precision_at_k [1] 2 = 1 ∧ AIAssist.precision_at_k [1] 2 ≠ 1 / 2 := by
  constructor <;> norm_num [AIAssist.precision_at_k]

/-- C2 (amended): `precision@k` sums the relevance flags over the top
`min(k, len(relevance))` positions and divides by that clamped value, and it
equals `0` when the clamped value is `0` (in particular when `k = 0`); the
divisor is the clamped value, not `k` itself, whenever the relevance list has
fewer than `k` entries. -/
theorem precision_at_k_spec (relevance : List ℤ) (k : ℕ) (h : 0 < min k relevance.length) :
    AIAssist.precision_at_k relevance k
      = ((relevance.take (min k relevance.length)).sum : ℚ) / (min k relevance.length : ℚ)
    ∧ AIAssist.precision_at_k relevance 0 = 0 := by
  constructor
  · unfold AIAssist.precision_at_k
    have hne : ¬ (min k relevance.length = 0) := by omega
    simp [hne]
  · unfold AIAssist.precision_at_k
    simp

/-- C2 witness: instantiation of `precision_at_k_spec` at `[1, 0, 1], k = 2`. -/
theorem precision_at_k_spec_witness :
    0 < min 2 ([1, 0, 1] : List ℤ).length
    ∧ (AIAssist.precision_at_k [1, 0, 1] 2
        = ((([1, 0, 1] : List ℤ).take (min 2 ([1, 0, 1] : List ℤ).length)).sum : ℚ)
            / (min 2 ([1, 0, 1] : List ℤ).length : ℚ)
      ∧ AIAssist.precision_at_k [1, 0, 1] 0 = 0) :=
  ⟨by decide, precision_at_k_spec [1, 0, 1] 2 (by decide)⟩

lemma sectionContextWalk_inherit :
    ∀ (chunks : List String) (prev : Option SectionContext) (i : ℕ),
      i < chunks.length →
      detectSectionHeading (chunks.getD i "") = none →
      (sectionContextWalk chunks prev).getD i defaultSectionContext
        = (if i = 0 then prev.getD defaultSectionContext
           else (sectionContextWalk chunks prev).getD (i - 1) defaultSectionContext) := by
  intro chunks
  induction chunks with
  | nil => intro prev i hi _; simp at hi
  | cons chunk rest ih =>
    intro prev i hi hdet
    cases i with
    | zero =>
      simp only [if_pos rfl]
      have hchunk : detectSectionHeading chunk = none := by simpa using hdet
      simp only [sectionContextWalk, List.getD_cons_zero, deriveSectionContext, hchunk]
      cases prev <;> rfl
    | succ i =>
      have hlen : i < rest.length := by simpa using hi
      have hdet' : detectSectionHeading (rest.getD i "") = none := by simpa using hdet
      have := ih (some (deriveSectionContext chunk prev)) i hlen hdet'
      simp only [sectionContextWalk, List.getD_cons_succ]
      rw [this]
      cases i with
      | zero => simp
      | succ j => simp [sectionContextWalk]

/-- C6: in the per-document section-context walk, a chunk in which no heading
is detected inherits the context of the previous chunk of the same document,
and the first such chunk (with no prior context) receives the default context
with heading "General", title "General", path `["General"]`, rank "General"
and level 1. -/
theorem section_context_inherits (chunks : List String) (i : ℕ)
    (hi : i < chunks.length)
    (hdet : detectSectionHeading (chunks.getD i "") = none) :
    (documentSectionContexts chunks).getD i defaultSectionContext
      = (if i = 0 then defaultSectionContext
         else (documentSectionContexts chunks).getD (i - 1) defaultSectionContext)
    ∧ defaultSectionContext.heading = "General"
    ∧ defaultSectionContext.title = "General"
    ∧ defaultSectionContext.path = ["General"]
    ∧ defaultSectionContext.rank = "General"
    ∧ defaultSectionContext.level = 1 := by
  refine ⟨?_, rfl, rfl, rfl, rfl, rfl⟩
  have := sectionContextWalk_inherit chunks none i hi hdet
  simpa [documentSectionContexts] using this

/-- C6 witness: `section_context_inherits` on a two-chunk document whose
second chunk has no heading. -/
theorem section_context_inherits_witness :
    1 < (["1. Intro", "plain body text"] : List String).length
    ∧ detectSectionHeading ((["1. Intro", "plain body text"] : List String).getD 1 "") = none
    ∧ ((documentSectionContexts ["1. Intro", "plain body text"]).getD 1 defaultSectionContext
        = (if 1 = 0 then defaultSectionContext
           else (documentSectionContexts ["1. Intro", "plain body text"]).getD 0
              defaultSectionContext)
      ∧ defaultSectionContext.heading = "General"
      ∧ defaultSectionContext.title = "General"
      ∧ defaultSectionContext.path = ["General"]
      ∧ defaultSectionContext.rank = "General"
      ∧ defaultSectionContext.level = 1) :=
  ⟨by decide, by decide,
    section_context_inherits ["1. Intro", "plain body text"] 1 (by decide) (by decide)⟩

lemma occursInList_append_self (l : List Char) :
    ∀ pre post : List Char, occursInList l (pre ++ (l ++ post)) = true := by
  intro pre
  induction pre with
  | nil =>
    intro post
    cases l with
    | nil =>
      cases post with
      | nil => rfl
      | cons c rest => simp [occursInList]
    | cons a l' =>
      simp only [List.nil_append, List.cons_append, occursInList]
      have : (a :: l').isPrefixOf (a :: (l' ++ post)) = true := by
        rw [List.isPrefixOf_iff_prefix]
        exact ⟨post, by simp⟩
      simp [this]
  | cons c pre ih =>
    intro post
    simp only [List.cons_append, occursInList, List.append_eq, ih post, Bool.or_true]

lemma occursIn_concat (key pre post : String) :
    occursIn key (pre ++ key ++ post) = true := by
  unfold occursIn
  have h : (pre ++ key ++ post).data = pre.data ++ (key.data ++ post.data) := by
    simp [String.data_append]
  rw [h]
  exact occursInList_append_self key.data pre.data post.data

/-- C8 counterexample: the claim requires the "unknown strategy" error to
name the set of valid keys and requires *every* registered key to trigger a
rebuild; on the code the `ValueError` message names only the offending key
(none of the valid keys `all_in_one`/`fixed`/`semantic` occurs in it), and
calling with the currently active key returns silently without error — even
when that active key is itself unregistered. -/
theorem set_strategy_claim_counterexample :
    (setChunkingStrategy ⟨"fixed", "none", [], []⟩ "bogus").2
      = some ("Unsupported chunking strategy " ++ squote ++ "bogus" ++ squote)
    ∧ occursIn "all_in_one"
        ("Unsupported chunking strategy " ++ squote ++ "bogus" ++ squote) = false
    ∧ occursIn "fixed"
        ("Unsupported chunking strategy " ++ squote ++ "bogus" ++ squote) = false
    ∧ occursIn "semantic"
        ("Unsupported chunking strategy " ++ squote ++ "bogus" ++ squote) = false
    ∧ setChunkingStrategy ⟨"weird", "none", [], []⟩ "weird"
        = (⟨"weird", "none", [], []⟩, none) := by
  refine ⟨by decide, by decide, by decide, by decide, by decide⟩

/-- C8 (amended): calling `set_chunking_strategy`/`set_indexing_strategy`
with a key that differs from the active one and is not registered fails with
an "Unsupported … strategy '<key>'" error naming the offending key (but not
the valid key set) and leaves the session untouched; calling with the
currently active key is a silent no-op; any other registered key succeeds,
becomes the active key, and the active index is fully rebuilt from the
attachments under the active strategies. -/
theorem set_strategy_dispatch (s : SessionState) (key : String) :
    (key ≠ s.chunkingStrategy → key ∉ availableChunkers →
      setChunkingStrategy s key
        = (s, some ("Unsupported chunking strategy " ++ squote ++ key ++ squote))
      ∧ occursIn key ("Unsupported chunking strategy " ++ squote ++ key ++ squote) = true)
    ∧ (key ≠ s.chunkingStrategy → key ∈ availableChunkers →
      (setChunkingStrategy s key).2 = none
      ∧ (setChunkingStrategy s key).1.chunkingStrategy = key
      ∧ (setChunkingStrategy s key).1.indexEntries
          = rebuildIndexEntries (setChunkingStrategy s key).1.attachments key)
    ∧ (key = s.chunkingStrategy → setChunkingStrategy s key = (s, none))
    ∧ (key ≠ s.indexingStrategy → key ∉ availableIndexers →
      setIndexingStrategy s key
        = (s, some ("Unsupported indexing strategy " ++ squote ++ key ++ squote))
      ∧ occursIn key ("Unsupported indexing strategy " ++ squote ++ key ++ squote) = true)
    ∧ (key ≠ s.indexingStrategy → key ∈ availableIndexers →
      (setIndexingStrategy s key).2 = none
      ∧ (setIndexingStrategy s key).1.indexingStrategy = key
      ∧ (setIndexingStrategy s key).1.indexEntries
          = rebuildIndexEntries (setIndexingStrategy s key).1.attachments
              (setIndexingStrategy s key).1.chunkingStrategy)
    ∧ (key = s.indexingStrategy → setIndexingStrategy s key = (s, none)) := by
  refine ⟨?_, ?_, ?_, ?_, ?_, ?_⟩
  · intro hne hmem
    constructor
    · simp [setChunkingStrategy, hne, hmem]
    · have := occursIn_concat key ("Unsupported chunking strategy " ++ squote) squote
      simpa [String.append_assoc] using this
  · intro hne hmem
    simp [setChunkingStrategy, hne, hmem, rebuildSession]
  · intro heq
    simp [setChunkingStrategy, heq]
  · intro hne hmem
    constructor
    · simp [setIndexingStrategy, hne, hmem]
    · have := occursIn_concat key ("Unsupported indexing strategy " ++ squote) squote
      simpa [String.append_assoc] using this
  · intro hne hmem
    simp [setIndexingStrategy, hne, hmem, rebuildSession]
  · intro heq
    simp [setIndexingStrategy, heq]

/-- C8 witness: `set_strategy_dispatch` on a fresh session (active keys
`fixed`/`none`) switching to the registered key `semantic`. -/
theorem set_strategy_dispatch_witness :
    ("semantic" ≠ "fixed" ∧ "semantic" ∈ availableChunkers)
    ∧ ((setChunkingStrategy ⟨"fixed", "none", [], []⟩ "semantic").2 = none
      ∧ (setChunkingStrategy ⟨"fixed", "none", [], []⟩ "semantic").1.chunkingStrategy
          = "semantic"
      ∧ (setChunkingStrategy ⟨"fixed", "none", [], []⟩ "semantic").1.indexEntries
          = rebuildIndexEntries
              (setChunkingStrategy ⟨"fixed", "none", [], []⟩ "semantic").1.attachments
              "semantic") :=
  ⟨⟨by decide, by decide⟩,
    (set_strategy_dispatch ⟨"fixed", "none", [], []⟩ "semantic").2.1
      (by decide) (by decide)⟩

/-- C10: the strategy setters validate before mutating — called with an
unregistered key they leave the session (active strategy keys, attachments
and their per-strategy chunk caches, index contents) exactly as it was, and
when the key also differs from the active one an error is raised. -/
theorem set_strategy_error_atomic (s : SessionState) (key : String) :
    (key ∉ availableChunkers →
      (setChunkingStrategy s key).1 = s
      ∧ (key ≠ s.chunkingStrategy → ((setChunkingStrategy s key).2).isSome = true))
    ∧ (key ∉ availableIndexers →
      (setIndexingStrategy s key).1 = s
      ∧ (key ≠ s.indexingStrategy → ((setIndexingStrategy s key).2).isSome = true)) := by
  constructor
  · intro hmem
    constructor
    · by_cases heq : key = s.chunkingStrategy
      · simp [setChunkingStrategy, heq]
      · simp [setChunkingStrategy, heq, hmem]
    · intro hne
      simp [setChunkingStrategy, hne, hmem]
  · intro hmem
    constructor
    · by_cases heq : key = s.indexingStrategy
      · simp [setIndexingStrategy, heq]
      · simp [setIndexingStrategy, heq, hmem]
    · intro hne
      simp [setIndexingStrategy, hne, hmem]

/-- C10 witness: `set_strategy_error_atomic` with the unregistered key
`bogus` against a session holding one attachment. -/
theorem set_strategy_error_atomic_witness :
    ("bogus" ∉ availableChunkers ∧ "bogus" ∉ availableIndexers
      ∧ "bogus" ≠ "fixed" ∧ "bogus" ≠ "none")
    ∧ (setChunkingStrategy
          ⟨"fixed", "none", [⟨"a1", "f.txt", "hello", ["hello"], [("fixed", ["hello"])]⟩],
            [("hello", buildChunkMetadata
              ⟨"a1", "f.txt", "hello", ["hello"], [("fixed", ["hello"])]⟩ 0
              defaultSectionContext)]⟩ "bogus").1
        = ⟨"fixed", "none", [⟨"a1", "f.txt", "hello", ["hello"], [("fixed", ["hello"])]⟩],
            [("hello", buildChunkMetadata
              ⟨"a1", "f.txt", "hello", ["hello"], [("fixed", ["hello"])]⟩ 0
              defaultSectionContext)]⟩
    ∧ ((setChunkingStrategy
          ⟨"fixed", "none", [⟨"a1", "f.txt", "hello", ["hello"], [("fixed", ["hello"])]⟩],
            [("hello", buildChunkMetadata
              ⟨"a1", "f.txt", "hello", ["hello"], [("fixed", ["hello"])]⟩ 0
              defaultSectionContext)]⟩ "bogus").2).isSome = true
    ∧ (setIndexingStrategy ⟨"fixed", "none", [], []⟩ "bogus").1 = ⟨"fixed", "none", [], []⟩
    ∧ ((setIndexingStrategy ⟨"fixed", "none", [], []⟩ "bogus").2).isSome = true :=
  ⟨⟨by decide, by decide, by decide, by decide⟩,
    ((set_strategy_error_atomic
      ⟨"fixed", "none", [⟨"a1", "f.txt", "hello", ["hello"], [("fixed", ["hello"])]⟩],
        [("hello", buildChunkMetadata
          ⟨"a1", "f.txt", "hello", ["hello"], [("fixed", ["hello"])]⟩ 0
          defaultSectionContext)]⟩ "bogus").1 (by decide)).1,
    ((set_strategy_error_atomic
      ⟨"fixed", "none", [⟨"a1", "f.txt", "hello", ["hello"], [("fixed", ["hello"])]⟩],
        [("hello", buildChunkMetadata
          ⟨"a1", "f.txt", "hello", ["hello"], [("fixed", ["hello"])]⟩ 0
          defaultSectionContext)]⟩ "bogus").1 (by decide)).2 (by decide),
    ((set_strategy_error_atomic ⟨"fixed", "none", [], []⟩ "bogus").2 (by decide)).1,
    ((set_strategy_error_atomic ⟨"fixed", "none", [], []⟩ "bogus").2 (by decide)).2
      (by decide)⟩

lemma logb_two_pos (i : ℕ) : 0 < Real.logb 2 ((i : ℝ) + 2) := by
  apply Real.logb_pos (by norm_num)
  have : (0 : ℝ) ≤ (i : ℝ) := Nat.cast_nonneg i
  linarith

lemma logb_weight_antitone (i : ℕ) :
    (Real.logb 2 (((i + 1 : ℕ) : ℝ) + 2))⁻¹ ≤ (Real.logb 2 ((i : ℝ) + 2))⁻¹ := by
  apply inv_anti₀ (logb_two_pos i)
  apply Real.logb_le_logb_of_le (by norm_num)
  · have : (0 : ℝ) ≤ (i : ℝ) := Nat.cast_nonneg i
    linarith
  · push_cast
    linarith

lemma gain_term_nonneg (x : ℝ) (hx : 0 ≤ x) : 0 ≤ (2 : ℝ) ^ x - 1 := by
  have h0 : (2 : ℝ) ^ (0 : ℝ) ≤ (2 : ℝ) ^ x :=
    Real.rpow_le_rpow_of_exponent_le (by norm_num) hx
  rw [Real.rpow_zero] at h0
  linarith

lemma gain_term_mono : Monotone (fun x : ℝ => (2 : ℝ) ^ x - 1) := by
  intro x y hxy
  have := Real.rpow_le_rpow_of_exponent_le (show (1 : ℝ) ≤ 2 by norm_num) hxy
  simpa using this

lemma abel_partial (w u v : ℕ → ℝ) (hwa : ∀ i, w (i + 1) ≤ w i)
    (hUV : ∀ m, ∑ i in Finset.range m, u i ≤ ∑ i in Finset.range m, v i) :
    ∀ k, w k * ((∑ i in Finset.range k, v i) - ∑ i in Finset.range k, u i)
        ≤ ∑ i in Finset.range k, w i * (v i - u i) := by
  intro k
  induction k with
  | zero => simp
  | succ k ih =>
    have hD : 0 ≤ (∑ i in Finset.range (k + 1), v i) - ∑ i in Finset.range (k + 1), u i :=
      sub_nonneg.mpr (hUV (k + 1))
    have h1 : w (k + 1) * ((∑ i in Finset.range (k + 1), v i) - ∑ i in Finset.range (k + 1), u i)
        ≤ w k * ((∑ i in Finset.range (k + 1), v i) - ∑ i in Finset.range (k + 1), u i) :=
      mul_le_mul_of_nonneg_right (hwa k) hD
    calc w (k + 1) * ((∑ i in Finset.range (k + 1), v i) - ∑ i in Finset.range (k + 1), u i)
        ≤ w k * ((∑ i in Finset.range (k + 1), v i) - ∑ i in Finset.range (k + 1), u i) := h1
      _ = w k * ((∑ i in Finset.range k, v i) - ∑ i in Finset.range k, u i)
            + w k * (v k - u k) := by
          rw [Finset.sum_range_succ, Finset.sum_range_succ]
          ring
      _ ≤ (∑ i in Finset.range k, w i * (v i - u i)) + w k * (v k - u k) :=
          add_le_add_right ih _
      _ = ∑ i in Finset.range (k + 1), w i * (v i - u i) := by
          rw [Finset.sum_range_succ]

lemma abel_bound (w u v : ℕ → ℝ) (hw0 : ∀ i, 0 ≤ w i) (hwa : ∀ i, w (i + 1) ≤ w i)
    (hUV : ∀ m, ∑ i in Finset.range m, u i ≤ ∑ i in Finset.range m, v i) (k : ℕ) :
    ∑ i in Finset.range k, w i * u i ≤ ∑ i in Finset.range k, w i * v i := by
  have h1 := abel_partial w u v hwa hUV k
  have h2 : 0 ≤ w k * ((∑ i in Finset.range k, v i) - ∑ i in Finset.range k, u i) :=
    mul_nonneg (hw0 k) (sub_nonneg.mpr (hUV k))
  have h3 : 0 ≤ ∑ i in Finset.range k, w i * (v i - u i) := le_trans h2 h1
  have h4 : ∑ i in Finset.range k, w i * (v i - u i)
      = (∑ i in Finset.range k, w i * v i) - ∑ i in Finset.range k, w i * u i := by
    rw [← Finset.sum_sub_distrib]
    apply Finset.sum_congr rfl
    intro i _
    ring
  linarith [h4 ▸ h3]

lemma sortedDesc_perm (l : List ℝ) : List.Perm (sortedDesc l) l :=
  List.perm_insertionSort _ l

lemma sortedDesc_sorted (l : List ℝ) : (sortedDesc l).Sorted (· ≥ ·) :=
  List.sorted_insertionSort _ l

lemma sortedDesc_length (l : List ℝ) : (sortedDesc l).length = l.length :=
  (sortedDesc_perm l).length_eq

lemma sorted_ge_subperm_getElem_le (t b : List ℝ) (ht : t.Sorted (· ≥ ·))
    (hb : b.Sorted (· ≥ ·)) (hsub : List.Subperm t b) (i : ℕ) (hit : i < t.length)
    (hib : i < b.length) : t[i] ≤ b[i] := by
  by_contra hlt
  push_neg at hlt
  set p : ℝ → Bool := fun x => decide (b[i] < x) with hp
  have h1 : i + 1 ≤ t.countP p := by
    have hsplit : t.countP p = (t.take (i + 1)).countP p + (t.drop (i + 1)).countP p := by
      rw [← List.countP_append, List.take_append_drop]
    have hall : ∀ x ∈ t.take (i + 1), p x = true := by
      intro x hx
      rcases List.mem_iff_getElem.mp hx with ⟨j, hj, rfl⟩
      have hj1 : j < i + 1 := by
        have := hj
        simp only [List.length_take] at this
        omega
      have hjt : j < t.length := by omega
      rw [List.getElem_take]
      have hge : t[i] ≤ t[j] := by
        rcases Nat.lt_or_ge j i with hji | hji
        · exact ht.rel_get_of_lt (show (⟨j, hjt⟩ : Fin t.length) < ⟨i, hit⟩ from hji)
        · have : j = i := by omega
          subst this
          exact le_refl _
      rw [hp]
      simp only [decide_eq_true_eq]
      exact lt_of_lt_of_le hlt hge
    have htakelen : (t.take (i + 1)).length = i + 1 := by
      simp only [List.length_take]
      omega
    have hcnt : (t.take (i + 1)).countP p = i + 1 := by
      rw [List.countP_eq_length.mpr hall, htakelen]
    omega
  have h2 : b.countP p ≤ i := by
    have hsplit : b.countP p = (b.take i).countP p + (b.drop i).countP p := by
      rw [← List.countP_append, List.take_append_drop]
    have hdrop : (b.drop i).countP p = 0 := by
      rw [List.countP_eq_zero]
      intro x hx
      rcases List.mem_iff_getElem.mp hx with ⟨j, hj, rfl⟩
      have hjb : i + j < b.length := by
        simp only [List.length_drop] at hj
        omega
      rw [List.getElem_drop]
      have hle : b[i + j] ≤ b[i] := by
        rcases Nat.eq_zero_or_pos j with hj0 | hj0
        · subst hj0
          simp
        · exact hb.rel_get_of_lt (show (⟨i, hib⟩ : Fin b.length) < ⟨i + j, hjb⟩ by
            simp only [Fin.mk_lt_mk]
            omega)
      rw [hp]
      simp only [decide_eq_true_eq]
      intro hcon
      exact absurd hle (not_le.mpr hcon)
    have htake : (b.take i).countP p ≤ i := by
      calc (b.take i).countP p ≤ (b.take i).length := List.countP_le_length p
        _ ≤ i := by simp [List.length_take]
    omega
  have h3 : t.countP p ≤ b.countP p := by
    have hm : (t : Multiset ℝ) ≤ (b : Multiset ℝ) := Multiset.coe_le.mpr hsub
    have := Multiset.countP_le_of_le (fun x => p x) hm
    simpa [Multiset.coe_countP] using this
  omega

lemma sum_range_getD_eq_map_sum (f : ℝ → ℝ) (l : List ℝ) :
    ∑ i in Finset.range l.length, f (l.getD i 0) = (l.map f).sum := by
  induction l with
  | nil => simp
  | cons a t ih =>
    rw [List.length_cons, Finset.sum_range_succ']
    simp only [List.getD_cons_succ, List.getD_cons_zero, List.map_cons, List.sum_cons]
    rw [ih, add_comm]

lemma prefix_sum_le_sorted_main (l : List ℝ) (f : ℝ → ℝ) (hf : Monotone f) (m : ℕ)
    (hm : m ≤ l.length) :
    ∑ i in Finset.range m, f (l.getD i 0)
      ≤ ∑ i in Finset.range m, f ((sortedDesc l).getD i 0) := by
  set t : List ℝ := sortedDesc (l.take m) with hts
  have htlen : t.length = m := by
    rw [hts, sortedDesc_length, List.length_take]
    omega
  have h1 : ∑ i in Finset.range m, f (l.getD i 0)
      = ∑ i in Finset.range m, f ((l.take m).getD i 0) := by
    apply Finset.sum_congr rfl
    intro i hi
    rw [Finset.mem_range] at hi
    rw [List.getD_eq_getElem?_getD, List.getD_eq_getElem?_getD,
      List.getElem?_take_of_lt hi]
  have h2 : ∑ i in Finset.range m, f ((l.take m).getD i 0) = ((l.take m).map f).sum := by
    have := sum_range_getD_eq_map_sum f (l.take m)
    have hlen : (l.take m).length = m := by
      simp only [List.length_take]
      omega
    rw [hlen] at this
    exact this
  have h3 : ((l.take m).map f).sum = (t.map f).sum := by
    apply List.Perm.sum_eq
    exact ((sortedDesc_perm (l.take m)).map f).symm
  have h4 : (t.map f).sum = ∑ i in Finset.range m, f (t.getD i 0) := by
    have := sum_range_getD_eq_map_sum f t
    rw [htlen] at this
    exact this.symm
  have hsub : List.Subperm t (sortedDesc l) := by
    have p1 : List.Subperm t (l.take m) := (sortedDesc_perm (l.take m)).subperm
    have p2 : List.Subperm (l.take m) l := (List.take_sublist m l).subperm
    have p3 : List.Subperm l (sortedDesc l) := (sortedDesc_perm l).symm.subperm
    exact (p1.trans p2).trans p3
  have h5 : ∀ i ∈ Finset.range m, f (t.getD i 0) ≤ f ((sortedDesc l).getD i 0) := by
    intro i hi
    rw [Finset.mem_range] at hi
    have hit : i < t.length := by omega
    have hib : i < (sortedDesc l).length := by
      rw [sortedDesc_length]
      omega
    have := sorted_ge_subperm_getElem_le t (sortedDesc l) (by rw [hts]; exact sortedDesc_sorted _)
      (sortedDesc_sorted l) hsub i hit hib
    rw [List.getD_eq_getElem?_getD, List.getD_eq_getElem?_getD,
      List.getElem?_eq_getElem hit, List.getElem?_eq_getElem hib]
    exact hf this
  calc ∑ i in Finset.range m, f (l.getD i 0)
      = ∑ i in Finset.range m, f (t.getD i 0) := by rw [h1, h2, h3, h4]
    _ ≤ ∑ i in Finset.range m, f ((sortedDesc l).getD i 0) := Finset.sum_le_sum h5

lemma prefix_sum_le_sorted (l : List ℝ) (f : ℝ → ℝ) (hf : Monotone f) (hf0 : f 0 = 0) :
    ∀ m, ∑ i in Finset.range m, f (l.getD i 0)
      ≤ ∑ i in Finset.range m, f ((sortedDesc l).getD i 0) := by
  intro m
  induction m with
  | zero => simp
  | succ m ih =>
    by_cases hm : m + 1 ≤ l.length
    · exact prefix_sum_le_sorted_main l f hf (m + 1) hm
    · rw [Finset.sum_range_succ, Finset.sum_range_succ]
      have hg1 : l.getD m 0 = 0 := by
        rw [List.getD_eq_getElem?_getD, List.getElem?_eq_none (by omega)]
        rfl
      have hg2 : (sortedDesc l).getD m 0 = 0 := by
        rw [List.getD_eq_getElem?_getD, List.getElem?_eq_none (by rw [sortedDesc_length]; omega)]
        rfl
      rw [hg1, hg2, hf0]
      exact add_le_add_right ih _

lemma dcg_eq_weighted (gains : List ℝ) (k : ℕ) :
    discounted_cumulative_gain gains k
      = ∑ i in Finset.range k,
          (Real.logb 2 ((i : ℝ) + 2))⁻¹ * ((2 : ℝ) ^ gains.getD i 0 - 1) := by
  unfold discounted_cumulative_gain
  apply Finset.sum_congr rfl
  intro i _
  rw [div_eq_mul_inv, mul_comm]

lemma dcg_le_ideal (gains : List ℝ) (k : ℕ) :
    discounted_cumulative_gain gains k
      ≤ discounted_cumulative_gain (sortedDesc gains) k := by
  rw [dcg_eq_weighted, dcg_eq_weighted]
  apply abel_bound (fun i => (Real.logb 2 ((i : ℝ) + 2))⁻¹)
    (fun i => (2 : ℝ) ^ gains.getD i 0 - 1)
    (fun i => (2 : ℝ) ^ (sortedDesc gains).getD i 0 - 1)
  · intro i
    exact inv_nonneg.mpr (le_of_lt (logb_two_pos i))
  · intro i
    exact logb_weight_antitone i
  · intro m
    have hf0 : (fun x : ℝ => (2 : ℝ) ^ x - 1) 0 = 0 := by
      simp [Real.rpow_zero]
    exact prefix_sum_le_sorted gains (fun x => (2 : ℝ) ^ x - 1) gain_term_mono hf0 m

lemma dcg_nonneg (gains : List ℝ) (k : ℕ) (h : ∀ g ∈ gains, 0 ≤ g) :
    0 ≤ discounted_cumulative_gain gains k := by
  unfold discounted_cumulative_gain
  apply Finset.sum_nonneg
  intro i _
  apply div_nonneg
  · apply gain_term_nonneg
    by_cases hi : i < gains.length
    · rw [List.getD_eq_getElem?_getD, List.getElem?_eq_getElem hi]
      exact h _ (List.getElem_mem hi)
    · rw [List.getD_eq_getElem?_getD, List.getElem?_eq_none (by omega)]
      simp
  · exact le_of_lt (logb_two_pos i)

/-- C7: for every finite sequence of non-negative gains and every `k`,
`NDCG@k` lies in `[0, 1]`: the DCG over the first `k` positions never exceeds
the DCG of the descending-sorted gains, and the result is `0` when the ideal
DCG is `0` (and when the clamped window is empty). -/
theorem ndcg_at_k_mem_unit_interval (gains : List ℝ) (k : ℕ)
    (h : ∀ g ∈ gains, 0 ≤ g) :
    0 ≤ ndcg_at_k gains k ∧ ndcg_at_k gains k ≤ 1
    ∧ discounted_cumulative_gain gains (min k gains.length)
        ≤ discounted_cumulative_gain (sortedDesc gains) (min k gains.length) := by
  have hdom := dcg_le_ideal gains (min k gains.length)
  unfold ndcg_at_k
  dsimp only
  by_cases hk : min k gains.length = 0
  · rw [if_pos hk]
    exact ⟨le_refl 0, by norm_num, hdom⟩
  · rw [if_neg hk]
    by_cases hideal :
        discounted_cumulative_gain (sortedDesc gains) (min k gains.length) = 0
    · rw [if_pos hideal]
      exact ⟨le_refl 0, by norm_num, hdom⟩
    · rw [if_neg hideal]
      have hnn : 0 ≤ discounted_cumulative_gain (sortedDesc gains) (min k gains.length) := by
        apply dcg_nonneg
        intro g hg
        exact h g ((sortedDesc_perm gains).subset hg)
      have hpos : 0 < discounted_cumulative_gain (sortedDesc gains) (min k gains.length) :=
        lt_of_le_of_ne hnn (Ne.symm hideal)
      have hd0 : 0 ≤ discounted_cumulative_gain gains (min k gains.length) :=
        dcg_nonneg gains _ h
      exact ⟨div_nonneg hd0 (le_of_lt hpos), (div_le_one hpos).mpr hdom, hdom⟩

/-- C7 witness: `ndcg_at_k_mem_unit_interval` at gains `[1, 0]`, `k = 2`. -/
theorem ndcg_at_k_mem_unit_interval_witness :
    (∀ g ∈ ([1, 0] : List ℝ), 0 ≤ g)
    ∧ (0 ≤ ndcg_at_k [1, 0] 2 ∧ ndcg_at_k [1, 0] 2 ≤ 1
      ∧ discounted_cumulative_gain [1, 0] (min 2 ([1, 0] : List ℝ).length)
          ≤ discounted_cumulative_gain (sortedDesc [1, 0])
              (min 2 ([1, 0] : List ℝ).length)) :=
  ⟨by intro g hg; rcases List.mem_cons.mp hg with rfl | hg' <;> simp_all,
    ndcg_at_k_mem_unit_interval [1, 0] 2
      (by intro g hg; rcases List.mem_cons.mp hg with rfl | hg' <;> simp_all)⟩

lemma sortByScoreDesc_sorted {α : Type} (score : α → ℝ) (l : List α) :
    (sortByScoreDesc score l).Pairwise (fun a b => score b ≤ score a) := by
  haveI : IsTrans α (fun a b => score b ≤ score a) :=
    ⟨fun _ _ _ h1 h2 => le_trans h2 h1⟩
  haveI : IsTotal α (fun a b => score b ≤ score a) :=
    ⟨fun a b => le_total (score b) (score a)⟩
  exact List.sorted_insertionSort _ l

lemma sortByScoreDesc_perm {α : Type} (score : α → ℝ) (l : List α) :
    List.Perm (sortByScoreDesc score l) l :=
  List.perm_insertionSort _ l

lemma pairwise_key_inj {α β : Type} (key : α → β) {l : List α}
    (hp : l.Pairwise (fun a b => key a ≠ key b)) {a b : α} (ha : a ∈ l) (hb : b ∈ l)
    (hk : key a = key b) : a = b := by
  by_contra hne
  have hsymm : Symmetric (fun a b : α => key a ≠ key b) := by
    intro x y hxy heq
    exact hxy heq.symm
  exact (List.Pairwise.forall hsymm hp ha hb hne) hk

lemma mem_sectionScoresOf {q : String} {docs : List DocNode} {ss : SectionScore} :
    ss ∈ sectionScoresOf q docs ↔
      ∃ d ∈ docs, ∃ sec ∈ d.sections,
        ¬ (cosineScore q (sectionCombined sec) ≤ 0)
        ∧ ss = ⟨d.docId, sec.path, sec.heading, sec.chunks.length,
                cosineScore q (sectionCombined sec)⟩ := by
  unfold sectionScoresOf
  constructor
  · intro h
    rcases List.mem_flatten.mp h with ⟨l, hl, hss⟩
    rcases List.mem_map.mp hl with ⟨d, hd, rfl⟩
    rcases List.mem_filterMap.mp hss with ⟨sec, hsec, hf⟩
    by_cases hc : cosineScore q (sectionCombined sec) ≤ 0
    · rw [if_pos hc] at hf
      exact absurd hf (by simp)
    · rw [if_neg hc] at hf
      exact ⟨d, hd, sec, hsec, hc, (Option.some.injEq _ _ ▸ hf).symm⟩
  · rintro ⟨d, hd, sec, hsec, hc, rfl⟩
    apply List.mem_flatten.mpr
    refine ⟨_, List.mem_map_of_mem _ hd, ?_⟩
    apply List.mem_filterMap.mpr
    exact ⟨sec, hsec, by rw [if_neg hc]⟩

lemma selectedSections_subset {q : String} {topK : ℕ} {docs : List DocNode}
    {ss : SectionScore} (h : ss ∈ selectedSections q topK docs) :
    ss ∈ sectionScoresOf q docs :=
  (sortByScoreDesc_perm SectionScore.score (sectionScoresOf q docs)).subset
    (List.take_subset _ _ h)

lemma selectedSections_pos {q : String} {topK : ℕ} {docs : List DocNode}
    {ss : SectionScore} (h : ss ∈ selectedSections q topK docs) : 0 < ss.score := by
  rcases mem_sectionScoresOf.mp (selectedSections_subset h) with ⟨d, _, sec, _, hc, rfl⟩
  simpa using lt_of_not_le hc

lemma selected_ge_unselected {q : String} {topK : ℕ} {docs : List DocNode}
    {ss x : SectionScore} (hss : ss ∈ selectedSections q topK docs)
    (hx : x ∈ sectionScoresOf q docs) (hnot : x ∉ selectedSections q topK docs) :
    x.score ≤ ss.score := by
  have hperm := sortByScoreDesc_perm SectionScore.score (sectionScoresOf q docs)
  have hx' : x ∈ sortByScoreDesc SectionScore.score (sectionScoresOf q docs) :=
    hperm.symm.subset hx
  have hsplit :
      sortByScoreDesc SectionScore.score (sectionScoresOf q docs)
        = (sortByScoreDesc SectionScore.score (sectionScoresOf q docs)).take topK
          ++ (sortByScoreDesc SectionScore.score (sectionScoresOf q docs)).drop topK :=
    (List.take_append_drop _ _).symm
  have hxdrop : x ∈ (sortByScoreDesc SectionScore.score (sectionScoresOf q docs)).drop topK := by
    rcases List.mem_append.mp (hsplit ▸ hx') with h | h
    · exact absurd h hnot
    · exact h
  have hpair := sortByScoreDesc_sorted SectionScore.score (sectionScoresOf q docs)
  rw [hsplit] at hpair
  exact (List.pairwise_append.mp hpair).2.2 ss hss x hxdrop

lemma mem_expandSection {q : String} {docs : List DocNode} {ss : SectionScore}
    {hit : SearchHit} (hmem : hit ∈ expandSection q docs ss) :
    0 < hit.score
    ∧ ∃ d ∈ docs, d.docId = ss.docId
      ∧ ∃ sec ∈ d.sections, sec.path = ss.path
        ∧ hit.chunk ∈ sec.chunks
        ∧ hit.score = cosineScore q hit.chunk
        ∧ hit.sectionScore = ss.score := by
  unfold expandSection at hmem
  split at hmem
  · simp at hmem
  next d hfd =>
    split at hmem
    · simp at hmem
    next sec hfs =>
      rcases List.mem_filterMap.mp hmem with ⟨chunk, hchunk, hf⟩
      by_cases hc : cosineScore q chunk ≤ 0
      · rw [if_pos hc] at hf
        exact absurd hf (by simp)
      · rw [if_neg hc] at hf
        have hf' := (Option.some.injEq _ _ ▸ hf)
        subst hf'
        have hd : d ∈ docs := List.mem_of_find?_eq_some hfd
        have hdid : d.docId = ss.docId := by
          have := List.find?_some hfd
          simpa using this
        have hsecmem : sec ∈ d.sections := List.mem_of_find?_eq_some hfs
        have hsecp : sec.path = ss.path := by
          have := List.find?_some hfs
          simpa using this
        exact ⟨lt_of_not_le hc, d, hd, hdid, sec, hsecmem, hsecp, hchunk, rfl, rfl⟩

/-- C5: `HierarchicalIndex.search` is two-stage.  Stage 1 scores every
section by the cosine between the query and the section's concatenated chunk
text and retains only the best `top_k` (positive-scoring) sections: every
section not represented among the retained ones scores no higher than any
retained one.  Stage 2 returns only individual chunks drawn from retained
sections — a chunk of a section outside the selected `top_k` never appears —
with zero-scoring chunks discarded, hits merged across the selected sections,
sorted by descending chunk score, and truncated to `top_k`. -/
theorem hierarchical_search_two_stage (q : String) (topK : ℕ) (docs : List DocNode)
    (hdoc : docs.Pairwise (fun a b => a.docId ≠ b.docId))
    (hsec : ∀ d ∈ docs, d.sections.Pairwise (fun a b => a.path ≠ b.path)) :
    (searchIndex q topK docs).length ≤ topK
    ∧ (searchIndex q topK docs).Pairwise (fun a b => b.score ≤ a.score)
    ∧ (∀ hit ∈ searchIndex q topK docs,
        0 < hit.score
        ∧ hit.score = cosineScore q hit.chunk
        ∧ ∃ ss ∈ selectedSections q topK docs, ∃ d ∈ docs, d.docId = ss.docId
            ∧ ∃ sec ∈ d.sections, sec.path = ss.path
              ∧ hit.chunk ∈ sec.chunks
              ∧ ss.score = cosineScore q (sectionCombined sec))
    ∧ (selectedSections q topK docs).length ≤ topK
    ∧ (∀ ss ∈ selectedSections q topK docs, 0 < ss.score)
    ∧ (∀ ss ∈ selectedSections q topK docs, ∀ d ∈ docs, ∀ sec ∈ d.sections,
        (¬ ∃ ss' ∈ selectedSections q topK docs,
            ss'.docId = d.docId ∧ ss'.path = sec.path) →
        cosineScore q (sectionCombined sec) ≤ ss.score) := by
  have hsel_len : (selectedSections q topK docs).length ≤ topK := by
    unfold selectedSections
    simp [List.length_take]
  have hsel_pos : ∀ ss ∈ selectedSections q topK docs, 0 < ss.score :=
    fun ss hss => selectedSections_pos hss
  have hsel_best : ∀ ss ∈ selectedSections q topK docs, ∀ d ∈ docs, ∀ sec ∈ d.sections,
      (¬ ∃ ss' ∈ selectedSections q topK docs,
          ss'.docId = d.docId ∧ ss'.path = sec.path) →
      cosineScore q (sectionCombined sec) ≤ ss.score := by
    intro ss hss d hd sec hsecmem hnot
    by_cases hc : cosineScore q (sectionCombined sec) ≤ 0
    · exact le_trans hc (le_of_lt (selectedSections_pos hss))
    · set x : SectionScore :=
        ⟨d.docId, sec.path, sec.heading, sec.chunks.length,
          cosineScore q (sectionCombined sec)⟩ with hx
      have hxmem : x ∈ sectionScoresOf q docs :=
        mem_sectionScoresOf.mpr ⟨d, hd, sec, hsecmem, hc, rfl⟩
      have hxnot : x ∉ selectedSections q topK docs := by
        intro hxin
        exact hnot ⟨x, hxin, rfl, rfl⟩
      exact selected_ge_unselected hss hxmem hxnot
  have hmain : ∀ hit ∈ searchIndex q topK docs,
      0 < hit.score
      ∧ hit.score = cosineScore q hit.chunk
      ∧ ∃ ss ∈ selectedSections q topK docs, ∃ d ∈ docs, d.docId = ss.docId
          ∧ ∃ sec ∈ d.sections, sec.path = ss.path
            ∧ hit.chunk ∈ sec.chunks
            ∧ ss.score = cosineScore q (sectionCombined sec) := by
    intro hit hhit
    unfold searchIndex at hhit
    by_cases hq : q = "" ∨ docs = []
    · rw [if_pos hq] at hhit
      simp at hhit
    · rw [if_neg hq] at hhit
      have h1 : hit ∈ ((selectedSections q topK docs).map (expandSection q docs)).flatten :=
        (sortByScoreDesc_perm SearchHit.score _).subset (List.take_subset _ _ hhit)
      rcases List.mem_flatten.mp h1 with ⟨l, hl, hhit'⟩
      rcases List.mem_map.mp hl with ⟨ss, hssmem, rfl⟩
      obtain ⟨hpos, d, hd, hdid, sec, hsecmem, hsecp, hchunk, hscore, _⟩ :=
        mem_expandSection hhit'
      rcases mem_sectionScoresOf.mp (selectedSections_subset hssmem) with
        ⟨d0, hd0, sec0, hsec0, hc0, hsseq⟩
      have hdeq : d = d0 := by
        apply pairwise_key_inj DocNode.docId hdoc hd hd0
        rw [hdid, hsseq]
      subst hdeq
      have hseceq : sec = sec0 := by
        apply pairwise_key_inj SectionNode.path (hsec d hd) hsecmem hsec0
        rw [hsecp, hsseq]
      subst hseceq
      refine ⟨hpos, hscore, ss, hssmem, d, hd, hdid, sec, hsecmem, hsecp, hchunk, ?_⟩
      rw [hsseq]
  refine ⟨?_, ?_, hmain, hsel_len, hsel_pos, hsel_best⟩
  · unfold searchIndex
    by_cases hq : q = "" ∨ docs = []
    · simp [hq]
    · rw [if_neg hq]
      simp [List.length_take]
  · unfold searchIndex
    by_cases hq : q = "" ∨ docs = []
    · simp [hq]
    · rw [if_neg hq]
      exact (sortByScoreDesc_sorted SearchHit.score _).sublist (List.take_sublist _ _)

/-- C5 witness: `hierarchical_search_two_stage` on a two-section index
("Intro" / "Pricing"). -/
theorem hierarchical_search_two_stage_witness :
    (([⟨"doc1", [⟨"Intro", ["Intro"], ["welcome text"]⟩,
        ⟨"Pricing", ["Pricing"], ["price list details"]⟩]⟩] : List DocNode).Pairwise
        (fun a b => a.docId ≠ b.docId)
      ∧ ∀ d ∈ ([⟨"doc1", [⟨"Intro", ["Intro"], ["welcome text"]⟩,
          ⟨"Pricing", ["Pricing"], ["price list details"]⟩]⟩] : List DocNode),
          d.sections.Pairwise (fun a b => a.path ≠ b.path))
    ∧ ((searchIndex "price list" 1
          [⟨"doc1", [⟨"Intro", ["Intro"], ["welcome text"]⟩,
            ⟨"Pricing", ["Pricing"], ["price list details"]⟩]⟩]).length ≤ 1
      ∧ (searchIndex "price list" 1
          [⟨"doc1", [⟨"Intro", ["Intro"], ["welcome text"]⟩,
            ⟨"Pricing", ["Pricing"], ["price list details"]⟩]⟩]).Pairwise
          (fun a b => b.score ≤ a.score)
      ∧ (∀ hit ∈ searchIndex "price list" 1
          [⟨"doc1", [⟨"Intro", ["Intro"], ["welcome text"]⟩,
            ⟨"Pricing", ["Pricing"], ["price list details"]⟩]⟩],
          0 < hit.score
          ∧ hit.score = cosineScore "price list" hit.chunk
          ∧ ∃ ss ∈ selectedSections "price list" 1
              [⟨"doc1", [⟨"Intro", ["Intro"], ["welcome text"]⟩,
                ⟨"Pricing", ["Pricing"], ["price list details"]⟩]⟩],
              ∃ d ∈ ([⟨"doc1", [⟨"Intro", ["Intro"], ["welcome text"]⟩,
                ⟨"Pricing", ["Pricing"], ["price list details"]⟩]⟩] : List DocNode),
                d.docId = ss.docId
                ∧ ∃ sec ∈ d.sections, sec.path = ss.path
                  ∧ hit.chunk ∈ sec.chunks
                  ∧ ss.score = cosineScore "price list" (sectionCombined sec))
      ∧ (selectedSections "price list" 1
          [⟨"doc1", [⟨"Intro", ["Intro"], ["welcome text"]⟩,
            ⟨"Pricing", ["Pricing"], ["price list details"]⟩]⟩]).length ≤ 1
      ∧ (∀ ss ∈ selectedSections "price list" 1
          [⟨"doc1", [⟨"Intro", ["Intro"], ["welcome text"]⟩,
            ⟨"Pricing", ["Pricing"], ["price list details"]⟩]⟩], 0 < ss.score)
      ∧ (∀ ss ∈ selectedSections "price list" 1
          [⟨"doc1", [⟨"Intro", ["Intro"], ["welcome text"]⟩,
            ⟨"Pricing", ["Pricing"], ["price list details"]⟩]⟩],
          ∀ d ∈ ([⟨"doc1", [⟨"Intro", ["Intro"], ["welcome text"]⟩,
            ⟨"Pricing", ["Pricing"], ["price list details"]⟩]⟩] : List DocNode),
          ∀ sec ∈ d.sections,
          (¬ ∃ ss' ∈ selectedSections "price list" 1
              [⟨"doc1", [⟨"Intro", ["Intro"], ["welcome text"]⟩,
                ⟨"Pricing", ["Pricing"], ["price list details"]⟩]⟩],
              ss'.docId = d.docId ∧ ss'.path = sec.path) →
          cosineScore "price list" (sectionCombined sec) ≤ ss.score)) :=
  ⟨⟨by decide, by decide⟩,
    hierarchical_search_two_stage "price list" 1
      [⟨"doc1", [⟨"Intro", ["Intro"], ["welcome text"]⟩,
        ⟨"Pricing", ["Pricing"], ["price list details"]⟩]⟩]
      (by decide) (by decide)⟩
